import Mathlib

/-!
Verification development for the antares-sheet editor core
(`src/views/editor/editorCore.ts`).

The document tree, its traversal helpers (`NodeUtils`), the bounded
snapshot `History` and the sheet metadata live outside the analysed
sources and are modelled from the specification; everything about the
operation coordinator (`AtomEditOperation`), the undo bridge
(`UndoableEditor`) and the structural operations of `SheetEditorCore`
is translated directly from `editorCore.ts`.

Nodes are identified by paths (lists of child indices) instead of the
mutable parent pointers of the source: a path plays the role of the
object reference, and the object-identity comparisons of the source
(`===`, `indexOf`) become path comparisons and index arithmetic.
-/

/-- Modelled from the spec (section 3): the discriminant tag of a document
node; the implicit root container is the `Root` tag. -/
inductive ENodeType : Type where
  | Text
  | Mark
  | NewLine
  | Chord
  | ChordPure
  | Underline
  | UnderlinePure
  | Root
deriving DecidableEq, Repr

/-- Modelled from the spec (section 3): a document node carries a
discriminant tag, a string content, chord data (an abstract transposition
value, present meaningfully only on chord nodes) and an ordered list of
children.  The parent back-reference of the source is not stored: node
identity is a path from the root. -/
inductive SheetNode : Type where
  | mk (type : ENodeType) (content : String) (chord : Int) (children : List SheetNode)
deriving Repr

mutual

def SheetNode.beq : SheetNode → SheetNode → Bool
  | .mk t c h ch, .mk t2 c2 h2 ch2 =>
    t == t2 && c == c2 && h == h2 && SheetNode.beqList ch ch2

def SheetNode.beqList : List SheetNode → List SheetNode → Bool
  | [], [] => true
  | x :: xs, y :: ys => SheetNode.beq x y && SheetNode.beqList xs ys
  | _, _ => false

end

mutual

theorem SheetNode.beq_iff_eq : ∀ a b : SheetNode, SheetNode.beq a b = true ↔ a = b
  | .mk t c h ch, .mk t2 c2 h2 ch2 => by
    simp [SheetNode.beq, SheetNode.beqList_iff_eq ch ch2, and_assoc]

theorem SheetNode.beqList_iff_eq :
    ∀ xs ys : List SheetNode, SheetNode.beqList xs ys = true ↔ xs = ys
  | [], [] => by simp [SheetNode.beqList]
  | [], _ :: _ => by simp [SheetNode.beqList]
  | _ :: _, [] => by simp [SheetNode.beqList]
  | x :: xs, y :: ys => by
    simp [SheetNode.beqList, SheetNode.beq_iff_eq x y, SheetNode.beqList_iff_eq xs ys]

end

instance : DecidableEq SheetNode := fun a b =>
  decidable_of_iff (SheetNode.beq a b = true) (SheetNode.beq_iff_eq a b)

namespace SheetNode

def type : SheetNode → ENodeType
  | .mk t _ _ _ => t

def content : SheetNode → String
  | .mk _ c _ _ => c

def chordVal : SheetNode → Int
  | .mk _ _ h _ => h

def children : SheetNode → List SheetNode
  | .mk _ _ _ ch => ch

def withChildren : SheetNode → List SheetNode → SheetNode
  | .mk t c h _, ch => .mk t c h ch

def withContent : SheetNode → String → SheetNode
  | .mk t _ h ch, c => .mk t c h ch

def withChord : SheetNode → Int → SheetNode
  | .mk t c _ ch, h => .mk t c h ch

/-- `SheetNode.isChord` of the source: chord-family test. -/
def isChord (n : SheetNode) : Bool :=
  n.type = ENodeType.Chord || n.type = ENodeType.ChordPure

/-- `SheetNode.isUnderline` of the source: underline-family test. -/
def isUnderline (n : SheetNode) : Bool :=
  n.type = ENodeType.Underline || n.type = ENodeType.UnderlinePure

end SheetNode

example : (SheetNode.mk .Chord "C" 0 []).isChord = true := by decide

/-- A node of the live tree is identified by its path from the root:
the list of child indices to follow.  Paths replace the object
references and parent pointers of the source. -/
abbrev NodePath := List Nat

namespace SheetNode

/-- Look up the node at a path. -/
def getAt (n : SheetNode) : NodePath → Option SheetNode
  | [] => some n
  | i :: p =>
    match n.children[i]? with
    | some c => getAt c p
    | none => none

/-- Rewrite the node at a path with `f`, leaving the rest of the tree
unchanged.  Returns `none` when the path does not exist. -/
def modifyAt (n : SheetNode) (p : NodePath) (f : SheetNode → SheetNode) : Option SheetNode :=
  match p with
  | [] => some (f n)
  | i :: p =>
    match n.children[i]? with
    | some c =>
      match modifyAt c p f with
      | some c2 => some (n.withChildren (n.children.set i c2))
      | none => none
    | none => none

end SheetNode

mutual

/-- Modelled from the spec (section 6, depth-first traversal): the
pre-order enumeration of a subtree, each node paired with its path.
Forward document order is the order of this list. -/
def preorder : SheetNode → NodePath → List (NodePath × SheetNode)
  | .mk t c h ch, p => (p, .mk t c h ch) :: preorderList ch p 0

def preorderList : List SheetNode → NodePath → Nat → List (NodePath × SheetNode)
  | [], _, _ => []
  | c :: cs, p, i => preorder c (p ++ [i]) ++ preorderList cs p (i + 1)

end

namespace NodeUtils

/-- Modelled from the spec (section 6, forward search for the next node of
a matching discriminant): the path of the first node of type `t` strictly
after the node at `start` in forward document order, if any. -/
def findNextNodeByType (root : SheetNode) (start : NodePath) (t : ENodeType) :
    Option NodePath :=
  let l := preorder root []
  match l.findIdx? (fun e => e.1 = start) with
  | some i => ((l.drop (i + 1)).find? (fun e => e.2.type = t)).map (·.1)
  | none => none

/-- Modelled from the spec (section 6, depth-first traversal with an
early-stop predicate), as used by the purity scan of the same-level
add-underline branch: the nodes strictly after `start` in forward
document order, up to and including the node at `stop`. -/
def forwardSegment (root : SheetNode) (start stop : NodePath) :
    List (NodePath × SheetNode) :=
  let l := preorder root []
  match l.findIdx? (fun e => e.1 = start) with
  | some i =>
    let rest := l.drop (i + 1)
    match rest.findIdx? (fun e => e.1 = stop) with
    | some j => rest.take (j + 1)
    | none => rest
  | none => []

/-- Modelled from the spec (section 6, node construction):
`NodeUtils.createUnderlineNode(isPure)`. -/
def createUnderlineNode (isPure : Bool) (children : List SheetNode) : SheetNode :=
  .mk (if isPure then .UnderlinePure else .Underline) "" 0 children

/-- Modelled from the spec (section 6, node construction):
`NodeUtils.createTextNodes(s)` makes one single-character text node per
character of `s`, in order. -/
def createTextNodes (s : String) : List SheetNode :=
  s.toList.map fun ch => .mk .Text (String.mk [ch]) 0 []

/-- Modelled from the spec (section 6, node construction):
`NodeUtils.createMarkNode(s)`. -/
def createMarkNode (s : String) : SheetNode := .mk .Mark s 0 []

/-- Modelled from the spec (section 6, node construction):
`NodeUtils.createNewLineNode()`. -/
def createNewLineNode : SheetNode := .mk .NewLine "" 0 []

/-- Modelled from the spec (section 6, ancestor-chain queries): the
nearest common ancestor of two paths is their longest common prefix. -/
def commonAncestorPath : NodePath → NodePath → NodePath
  | a :: as, b :: bs => if a = b then a :: commonAncestorPath as bs else []
  | _, _ => []

/-- Modelled from the spec (section 6, sibling and index queries):
`slice a b` of a children list, as `Array.prototype.slice` behaves on the
index range `[a, b)`; an empty list results when `b ≤ a`. -/
def slice (l : List SheetNode) (a b : Nat) : List SheetNode :=
  (l.drop a).take (b - a)

end NodeUtils

/-- The helper `ensure` models a fatal `assert(cond, msg)` of the source:
an assertion failure is a raised error. -/
def ensure (b : Bool) (msg : String) : Except String Unit :=
  if b then .ok () else .error msg

/-- Convert the absent case of an `Option` into a raised error, modelling
source spots where a missing node would fault. -/
def orFail {α : Type} (o : Option α) (msg : String) : Except String α :=
  match o with
  | some a => .ok a
  | none => .error msg

theorem orFail_some {α : Type} (a : α) (msg : String) : orFail (some a) msg = .ok a := rfl

theorem orFail_none {α : Type} (msg : String) : orFail (none : Option α) msg = .error msg :=
  rfl

theorem ok_bind {α β : Type} (a : α) (f : α → Except String β) :
    (Except.ok a >>= f) = f a := rfl

theorem error_bind {α β : Type} (e : String) (f : α → Except String β) :
    ((Except.error e : Except String α) >>= f) = .error e := rfl

theorem ensure_true {b : Bool} (msg : String) (h : b = true) : ensure b msg = .ok () := by
  simp [ensure, h]

theorem ensure_false {b : Bool} (msg : String) (h : b = false) :
    ensure b msg = .error msg := by
  simp [ensure, h]


mutual

/-- The left-right mirror image of a subtree.  Recursions of the source
that walk the last child (`children[children.length - 1]`) are rendered
as first-child walks on the mirrored tree, which keeps them structurally
recursive. -/
def reverseTree : SheetNode → SheetNode
  | .mk t c h ch => .mk t c h (reverseTreeList ch).reverse

def reverseTreeList : List SheetNode → List SheetNode
  | [] => []
  | x :: xs => reverseTree x :: reverseTreeList xs

end

/-- One half of `SheetEditorCore.__assertBeginAndEnd` (lines 554-569):
resolve the first child recursively through nested underlines and demand
a chord, raising `msg` on any other node. -/
def resolveAnchor (msg : String) : SheetNode → Except String Unit
  | .mk t c h ch =>
    if (SheetNode.mk t c h ch).isChord then .ok ()
    else if (SheetNode.mk t c h ch).isUnderline then
      match ch with
      | [] => .error "underline has no children"
      | c0 :: _ => resolveAnchor msg c0
    else .error msg

/-- The begin half of `__assertBeginAndEnd`. -/
def resolveAnchorFirst (n : SheetNode) : Except String Unit :=
  resolveAnchor "first element of underline must be chord" n

/-- The end half of `__assertBeginAndEnd`: the source walks
`children[children.length - 1]`; on the mirrored tree that is the
first-child walk. -/
def resolveAnchorLast (n : SheetNode) : Except String Unit :=
  resolveAnchor "last element of underline must be chord" (reverseTree n)

/-- `SheetEditorCore.__assertBeginAndEnd(nodes)` (lines 554-569). -/
def assertBeginAndEnd (nodes : List SheetNode) : Except String Unit := do
  let b ← orFail nodes.head? "range is empty"
  resolveAnchorFirst b
  let e ← orFail nodes.getLast? "range is empty"
  resolveAnchorLast e

/-- Same-level branch of `SheetEditorCore.addUnderlineForChord` (lines
293-317): wrap the inclusive sibling range in one new underline.  The
two-step mutation of the source (insert the new underline before the
range, then move the range into it) is rendered as one splice of the
parent children list. -/
def addUnderlineSameLevel (root : SheetNode) (startPath endPath parentPath : NodePath)
    (i j : Nat) : Except String SheetNode := do
  let parentNode ← orFail (root.getAt parentPath) "parent not found"
  let L := parentNode.children
  let betweenNodes := NodeUtils.slice L i (j + 1)
  ensure (betweenNodes.length ≥ 2) "range between chords has wrong size"
  assertBeginAndEnd betweenNodes
  let seg := NodeUtils.forwardSegment root startPath endPath
  let hasChord := seg.any fun e => e.2.type = ENodeType.Chord
  let hasPureChord := seg.any fun e => e.2.type = ENodeType.ChordPure
  ensure (!(hasChord && hasPureChord)) "chord and pure chord cannot share an underline"
  let underlineNode := NodeUtils.createUnderlineNode hasPureChord betweenNodes
  orFail (root.modifyAt parentPath fun par =>
    par.withChildren (L.take i ++ [underlineNode] ++ L.drop (i + betweenNodes.length)))
    "parent not found"

/-- Start-nested branch of `SheetEditorCore.addUnderlineForChord` (lines
319-332): the underline ancestor of the start chord that sits at the
level of the end chord absorbs every sibling up to and including the end
chord.  Identity-based removal plus in-place mutation of the source is
rendered as a splice that also rewrites the underline node. -/
def addUnderlineExtendForward (root : SheetNode) (startPath endPath : NodePath) :
    Except String SheetNode := do
  let endParentPath := endPath.dropLast
  let uIdx ← orFail startPath[endParentPath.length]? "ancestor not found"
  let uPath := endParentPath ++ [uIdx]
  let startUnderlineNode ← orFail (root.getAt uPath) "ancestor not found"
  ensure (uPath ≠ endPath) "boundary node cannot be the underline itself"
  let endChordNode ← orFail (root.getAt endPath) "next chord not found"
  ensure endChordNode.isChord "extension boundary element must be chord"
  let j ← orFail endPath.getLast? "next chord has no parent"
  let parentNode ← orFail (root.getAt endParentPath) "parent not found"
  let L := parentNode.children
  let betweenNodes := NodeUtils.slice L (uIdx + 1) (j + 1)
  let U2 := startUnderlineNode.withChildren (startUnderlineNode.children ++ betweenNodes)
  orFail (root.modifyAt endParentPath fun par =>
    par.withChildren ((L.take (uIdx + 1)).set uIdx U2 ++ L.drop (uIdx + 1 + betweenNodes.length)))
    "parent not found"

/-- End-nested branch of `SheetEditorCore.addUnderlineForChord` (lines
334-347): extend the underline that encloses the end chord backwards to
absorb siblings from the start chord on.  When the slice is degenerate
the sequential source mutations leave the tree unchanged, rendered by
the else arm. -/
def addUnderlineExtendBackward (root : SheetNode) (startPath endPath : NodePath) :
    Except String SheetNode := do
  let startParentPath := startPath.dropLast
  let uIdx ← orFail endPath[startParentPath.length]? "ancestor not found"
  let uPath := startParentPath ++ [uIdx]
  let endUnderlineNode ← orFail (root.getAt uPath) "ancestor not found"
  ensure (uPath ≠ startPath) "boundary node cannot be the underline itself"
  let startChordNode ← orFail (root.getAt startPath) "chord not found"
  ensure startChordNode.isChord "extension boundary element must be chord"
  let i ← orFail startPath.getLast? "chord has no parent"
  let parentNode ← orFail (root.getAt startParentPath) "parent not found"
  let L := parentNode.children
  let betweenNodes := NodeUtils.slice L i uIdx
  let U2 := endUnderlineNode.withChildren (betweenNodes ++ endUnderlineNode.children)
  let newL := if i < uIdx then L.take i ++ [U2] ++ L.drop (uIdx + 1) else L.set uIdx U2
  orFail (root.modifyAt startParentPath fun par => par.withChildren newL) "parent not found"

/-- Merge branch of `SheetEditorCore.addUnderlineForChord` (lines
348-377): the two distinct same-level underlines and the range between
them merge into one new underline at the left position. -/
def addUnderlineMerge (root : SheetNode) (startPath endPath : NodePath) :
    Except String SheetNode := do
  let commonPath := NodeUtils.commonAncestorPath startPath endPath
  let sIdx ← orFail startPath[commonPath.length]? "ancestor not found"
  let eIdx ← orFail endPath[commonPath.length]? "ancestor not found"
  let sU ← orFail (root.getAt (commonPath ++ [sIdx])) "ancestor not found"
  let eU ← orFail (root.getAt (commonPath ++ [eIdx])) "ancestor not found"
  ensure (sU.isUnderline && eU.isUnderline) "merged nodes must be underlines"
  ensure (sIdx ≠ eIdx) "cannot merge with itself"
  ensure (sU.type = eU.type) "merged underlines must have equal type"
  let a := min sIdx eIdx
  let b := max sIdx eIdx
  let lU := if sIdx ≤ eIdx then sU else eU
  let rU := if sIdx ≤ eIdx then eU else sU
  let parentNode ← orFail (root.getAt commonPath) "parent not found"
  let L := parentNode.children
  let betweenNodes := NodeUtils.slice L (a + 1) b
  let mergedNode := NodeUtils.createUnderlineNode (lU.type = ENodeType.UnderlinePure)
    (lU.children ++ betweenNodes ++ rU.children)
  orFail (root.modifyAt commonPath fun par =>
    par.withChildren (L.take a ++ [mergedNode] ++ L.drop (b + 1))) "parent not found"

/-- `SheetEditorCore.addUnderlineForChord` (lines 277-379), the tree
transformation performed inside its atom operation.  The structural
relation of the two chords selects one of the four branches exactly as
the parent-pointer tests of the source do, with path prefixes playing
the role of ancestor chains. -/
def addUnderlineForChordOp (root : SheetNode) (p : NodePath) : Except String SheetNode := do
  let chordNode ← orFail (root.getAt p) "chord node not found"
  ensure chordNode.isChord "adding underline requires a chord node"
  let chordType := chordNode.type
  let nextChordPath ← orFail (NodeUtils.findNextNodeByType root p chordType)
    "cannot add underline: no next chord"
  let startPath := p
  let endPath := nextChordPath
  let startParent? : Option NodePath :=
    if startPath = [] then none else some startPath.dropLast
  let endParent? : Option NodePath :=
    if endPath = [] then none else some endPath.dropLast
  if startParent? = endParent? then
    match startParent?, startPath.getLast?, endPath.getLast? with
    | some pp, some i, some j => addUnderlineSameLevel root startPath endPath pp i j
    | _, _, _ => .error "chord has no parent"
  else if (match endParent? with
      | some q => q.isPrefixOf startPath && q.length < startPath.length
      | none => false) then
    addUnderlineExtendForward root startPath endPath
  else if (match startParent? with
      | some q => q.isPrefixOf endPath && q.length < endPath.length
      | none => false) then
    addUnderlineExtendBackward root startPath endPath
  else
    addUnderlineMerge root startPath endPath

/-- Anchor test shared by the shrink and split branches of the removal
algorithm: the filtered list of chord/underline children of the common
underline. -/
def isAnchorNode (n : SheetNode) : Bool := n.isChord || n.isUnderline

/-- The identity-based `anchorNodes.indexOf(node)` of the source
(lines 420-421 and friends): the node at index `i` of the children list
sits, among the anchor children, at the count of anchors strictly before
it; a non-anchor node yields `-1` exactly as `indexOf` does. -/
def anchorIndexOf (children : List SheetNode) (i : Nat) (node : SheetNode) : Int :=
  if isAnchorNode node then ((children.take i).countP fun n => isAnchorNode n : Nat) else -1

/-- Dissolve branch of `SheetEditorCore.removeUnderlineFromChordToNext`
(lines 409-412): the underline is replaced in its parent by its own
children. -/
def removeUnderlineDissolve (root : SheetNode) (commonPath : NodePath) :
    Except String SheetNode := do
  let commonNode ← orFail (root.getAt commonPath) "underline not found"
  let ci ← orFail commonPath.getLast? "underline has no parent"
  let cp := commonPath.dropLast
  let parentNode ← orFail (root.getAt cp) "parent not found"
  orFail (root.modifyAt cp fun par => par.withChildren
    (parentNode.children.take ci ++ commonNode.children ++ parentNode.children.drop (ci + 1)))
    "parent not found"

/-- Shrink-tail branch of `SheetEditorCore.removeUnderlineFromChordToNext`
(lines 413-427): everything after the start node moves out of the
underline, re-inserted right after it. -/
def removeUnderlineShrinkTail (root : SheetNode) (commonPath : NodePath) (si : Nat) :
    Except String SheetNode := do
  let commonNode ← orFail (root.getAt commonPath) "underline not found"
  let startNode ← orFail commonNode.children[si]? "start node not found"
  ensure (startNode.isChord || commonNode.isUnderline)
    "shrink base node should be chord or underline"
  let anchorNodes := commonNode.children.filter fun n => isAnchorNode n
  let baseNodeIndex := anchorIndexOf commonNode.children si startNode
  ensure (startNode.isUnderline || baseNodeIndex < (anchorNodes.length : Int) - 1)
    "tail shrink base node cannot be the last chord"
  let slicedNodes := commonNode.children.drop (si + 1)
  let ci ← orFail commonPath.getLast? "underline has no parent"
  let cp := commonPath.dropLast
  let parentNode ← orFail (root.getAt cp) "parent not found"
  let C2 := commonNode.withChildren (commonNode.children.take (si + 1))
  orFail (root.modifyAt cp fun par => par.withChildren
    (parentNode.children.take ci ++ [C2] ++ slicedNodes ++ parentNode.children.drop (ci + 1)))
    "parent not found"

/-- Shrink-head branch of `SheetEditorCore.removeUnderlineFromChordToNext`
(lines 429-443): everything before the end node moves out of the
underline, re-inserted right before it. -/
def removeUnderlineShrinkHead (root : SheetNode) (commonPath : NodePath) (ei : Nat) :
    Except String SheetNode := do
  let commonNode ← orFail (root.getAt commonPath) "underline not found"
  let endNode ← orFail commonNode.children[ei]? "end node not found"
  ensure (endNode.isChord || endNode.isUnderline)
    "shrink base node should be chord or underline"
  let anchorNodes := commonNode.children.filter fun n => isAnchorNode n
  let baseNodeIndex := anchorIndexOf commonNode.children ei endNode
  ensure (endNode.isUnderline || baseNodeIndex > 0)
    "head shrink base node cannot be the first chord"
  let slicedNodes := commonNode.children.take ei
  let ci ← orFail commonPath.getLast? "underline has no parent"
  let cp := commonPath.dropLast
  let parentNode ← orFail (root.getAt cp) "parent not found"
  let C2 := commonNode.withChildren (commonNode.children.drop ei)
  orFail (root.modifyAt cp fun par => par.withChildren
    (parentNode.children.take ci ++ slicedNodes ++ [C2] ++ parentNode.children.drop (ci + 1)))
    "parent not found"

/-- Split branch of `SheetEditorCore.removeUnderlineFromChordToNext`
(lines 444-475): the between-range is removed, and two new underlines of
the same purity take over the head and tail parts. -/
def removeUnderlineSplit (root : SheetNode) (commonPath : NodePath) (si ei : Nat) :
    Except String SheetNode := do
  let commonNode ← orFail (root.getAt commonPath) "underline not found"
  ensure commonNode.isUnderline "split node must be underline"
  let s := min si ei
  let e := max si ei
  let startNode ← orFail commonNode.children[s]? "start node not found"
  let endNode ← orFail commonNode.children[e]? "end node not found"
  let anchorNodes := commonNode.children.filter fun n => isAnchorNode n
  let startNodeIndex := anchorIndexOf commonNode.children s startNode
  let endNodeIndex := anchorIndexOf commonNode.children e endNode
  ensure (startNode.isUnderline || startNodeIndex > 0)
    "split start node cannot be the first chord"
  ensure (endNode.isUnderline || endNodeIndex < (anchorNodes.length : Int) - 1)
    "split end node cannot be the last chord"
  let betweenNodes := NodeUtils.slice commonNode.children (s + 1) e
  let isPure := commonNode.type = ENodeType.UnderlinePure
  let leftUnderline := NodeUtils.createUnderlineNode isPure (commonNode.children.take (s + 1))
  let rightUnderline := NodeUtils.createUnderlineNode isPure (commonNode.children.drop e)
  let ci ← orFail commonPath.getLast? "underline has no parent"
  let cp := commonPath.dropLast
  let parentNode ← orFail (root.getAt cp) "parent not found"
  orFail (root.modifyAt cp fun par => par.withChildren
    (parentNode.children.take ci ++ [leftUnderline] ++ betweenNodes ++ [rightUnderline]
      ++ parentNode.children.drop (ci + 1)))
    "parent not found"

/-- `SheetEditorCore.removeUnderlineFromChordToNext` (lines 384-477), the
tree transformation performed inside its atom operation.  `isBegin` and
`isEnd` are the sibling tests on the chord and the next chord of the
source (lines 406-407), not positions inside the common underline. -/
def removeUnderlineFromChordToNextOp (root : SheetNode) (p : NodePath) :
    Except String SheetNode := do
  let chordNode ← orFail (root.getAt p) "chord node not found"
  ensure chordNode.isChord "removing underline requires a chord node"
  let parentPath ← if p = [] then .error "chord has no parent" else .ok p.dropLast
  let parentNode ← orFail (root.getAt parentPath) "parent not found"
  ensure parentNode.isUnderline "chord is not under an underline"
  let i ← orFail p.getLast? "chord has no parent"
  ensure (i + 1 ≠ parentNode.children.length) "no underline between chord and next chord"
  let chordType := chordNode.type
  let nextChordPath ← orFail (NodeUtils.findNextNodeByType root p chordType)
    "next chord not found"
  let commonPath := NodeUtils.commonAncestorPath p nextChordPath
  let commonNode ← orFail (root.getAt commonPath) "common ancestor not found"
  ensure commonNode.isUnderline "no underline between this chord and the next"
  let si ← orFail p[commonPath.length]? "start boundary not found"
  let ei ← orFail nextChordPath[commonPath.length]? "end boundary not found"
  let isBegin := i = 0
  let nextParentPath ←
    if nextChordPath = [] then .error "next chord has no parent" else .ok nextChordPath.dropLast
  let nextParentNode ← orFail (root.getAt nextParentPath) "parent not found"
  let j ← orFail nextChordPath.getLast? "next chord has no parent"
  let isEnd := j + 1 = nextParentNode.children.length
  if isBegin && isEnd then removeUnderlineDissolve root commonPath
  else if !isBegin && isEnd then removeUnderlineShrinkTail root commonPath si
  else if isBegin && !isEnd then removeUnderlineShrinkHead root commonPath ei
  else removeUnderlineSplit root commonPath si ei

/-- The insertion-point walk of `SheetEditorCore.insertAfter` (lines
193-196) on a reversed path (the head of the argument is the deepest
index): while the target is the last child of an underline, step out to
the underline. -/
def walkOutLastAux (root : SheetNode) : NodePath → NodePath
  | [] => []
  | i :: q =>
    match root.getAt q.reverse with
    | some parent =>
      if parent.isUnderline && i + 1 = parent.children.length then
        walkOutLastAux root q
      else i :: q
    | none => i :: q

/-- The insertion-point walk of `SheetEditorCore.insertAfter`. -/
def walkOutLast (root : SheetNode) (p : NodePath) : NodePath :=
  (walkOutLastAux root p.reverse).reverse

/-- The insertion-point walk of `SheetEditorCore.insertBefore` (lines
212-215) on a reversed path: while the target is the first child of an
underline, step out to the underline. -/
def walkOutFirstAux (root : SheetNode) : NodePath → NodePath
  | [] => []
  | i :: q =>
    match root.getAt q.reverse with
    | some parent =>
      if parent.isUnderline && i = 0 then
        walkOutFirstAux root q
      else i :: q
    | none => i :: q

/-- The insertion-point walk of `SheetEditorCore.insertBefore`. -/
def walkOutFirst (root : SheetNode) (p : NodePath) : NodePath :=
  (walkOutFirstAux root p.reverse).reverse

/-- `SheetEditorCore.insertAfter` body (lines 189-205): walk the target
out of underline tails, then splice the new nodes after it. -/
def insertAfterOp (root : SheetNode) (p : NodePath) (toInsert : List SheetNode) :
    Except String SheetNode := do
  let targetPath := walkOutLast root p
  let tp ← if targetPath = [] then .error "target has no parent" else .ok targetPath.dropLast
  let i ← orFail targetPath.getLast? "target has no parent"
  orFail (root.modifyAt tp fun par =>
    par.withChildren (par.children.take (i + 1) ++ toInsert ++ par.children.drop (i + 1)))
    "parent not found"

/-- `SheetEditorCore.insertBefore` body (lines 208-224): walk the target
out of underline heads, then splice the new nodes before it. -/
def insertBeforeOp (root : SheetNode) (p : NodePath) (toInsert : List SheetNode) :
    Except String SheetNode := do
  let targetPath := walkOutFirst root p
  let tp ← if targetPath = [] then .error "target has no parent" else .ok targetPath.dropLast
  let i ← orFail targetPath.getLast? "target has no parent"
  orFail (root.modifyAt tp fun par =>
    par.withChildren (par.children.take i ++ toInsert ++ par.children.drop i))
    "parent not found"

/-- `SheetEditorCore.updateContent` body (lines 227-256): single-character
discriminants keep the first character and push the rest out as sibling
text nodes through `insertAfter`; marks take the whole content. -/
def updateContentOp (root : SheetNode) (p : NodePath) (content : String) :
    Except String SheetNode := do
  let node ← orFail (root.getAt p) "node not found"
  ensure (node.type = ENodeType.Text || node.type = ENodeType.Chord
    || node.type = ENodeType.Mark) "this node type cannot be edited"
  ensure (content.length > 0) "new content must not be empty"
  if node.type = ENodeType.Text || node.type = ENodeType.Chord then
    ensure (node.content.length = 1) "text or chord content should be one char"
    let root1 ← orFail (root.modifyAt p fun n => n.withContent (content.take 1))
      "node not found"
    let remaining := content.drop 1
    if remaining.length > 0 then
      insertAfterOp root1 p (NodeUtils.createTextNodes remaining)
    else
      pure root1
  else
    orFail (root.modifyAt p fun n => n.withContent content) "node not found"

/-- The `type` argument of `SheetEditorCore.insert` (lines 648-683). -/
inductive InsertType : Type where
  | text
  | space
  | mark
  | newline
deriving DecidableEq, Repr

/-- `SheetEditorCore.insert` body (lines 648-683).  The blocking
`prompt` calls are an injected input provider (spec sections 6 and 9):
`provided` is the text it returned, the empty string standing for an
empty or cancelled result, on which the command returns with no tree
change. -/
def insertOp (root : SheetNode) (p : NodePath) (ty : InsertType) (insertBefore : Bool)
    (provided : String) : Except String SheetNode := do
  let newNodes? : Option (List SheetNode) :=
    match ty with
    | .text => if provided = "" then none else some (NodeUtils.createTextNodes provided)
    | .space => some (NodeUtils.createTextNodes " ")
    | .mark => if provided = "" then none else some [NodeUtils.createMarkNode provided]
    | .newline => some [NodeUtils.createNewLineNode]
  match newNodes? with
  | none => .ok root
  | some ns => if insertBefore then insertBeforeOp root p ns else insertAfterOp root p ns

/-- `MAX_UNDO_TIMES` of editorCore.ts (line 8). -/
def MAX_UNDO_TIMES : Nat := 100

/-- Modelled from the spec (sections 4.2 and 6): the bounded snapshot
history, a list of deep snapshots with a cursor.  Snapshots are plain
values here, so cloning is the identity. -/
structure Hist : Type where
  entries : List SheetNode
  cursor : Nat
deriving DecidableEq, Repr

namespace Hist

/-- Modelled from the spec (section 4.2): the constructor seeds the
buffer with one baseline snapshot. -/
def init (seed : SheetNode) : Hist := ⟨[seed], 0⟩

/-- Modelled from the spec (section 6): `current()`. -/
def current? (h : Hist) : Option SheetNode := h.entries[h.cursor]?

/-- Modelled from the spec (section 6): `hasPrev()`. -/
def hasPrev (h : Hist) : Bool := 0 < h.cursor

/-- Modelled from the spec (section 6): `hasNext()`. -/
def hasNext (h : Hist) : Bool := h.cursor + 1 < h.entries.length

/-- Modelled from the spec (section 6): `add(snapshot)` truncates any
forward redo entries beyond the cursor, appends the snapshot, and evicts
the oldest entry once the capacity is exceeded; the cursor lands on the
new entry. -/
def add (cap : Nat) (h : Hist) (s : SheetNode) : Hist :=
  let es := h.entries.take (h.cursor + 1) ++ [s]
  if cap < es.length then ⟨es.drop 1, es.length - 2⟩ else ⟨es, es.length - 1⟩

/-- Modelled from the spec (section 6): `clear(seed)` resets the buffer
to one entry. -/
def clear (_h : Hist) (seed : SheetNode) : Hist := ⟨[seed], 0⟩

end Hist

/-- The whole mutable state of a `SheetEditorCore`: the sheet metadata
key (modelled from the spec, section 3: the sheet key under field-wise
overwrite), the live root node, the history, and instrumentation
counting the `onDone`/`onFailed` callback invocations of the operation
coordinator. -/
structure EditorState : Type where
  sheetKey : Int
  doc : SheetNode
  hist : Hist
  doneCalls : Nat
  failCalls : Nat
deriving DecidableEq, Repr

/-- The `onDone` callback the editor hands to its coordinator (line 149):
`addHistory` pushes a clone of the live root as a new snapshot. -/
def EditorState.addHistory (s : EditorState) : EditorState :=
  { s with hist := s.hist.add MAX_UNDO_TIMES s.doc, doneCalls := s.doneCalls + 1 }

/-- The `onFailed` callback (line 149): `retoreNewestHistory` loads the
newest committed snapshot back into the live tree by whole-children
replacement (`setFromHistory`, `__replaceSheet`, lines 127-129 and
152-159). -/
def EditorState.restoreNewestHistory (s : EditorState) : EditorState :=
  { s with
    doc := match s.hist.current? with
      | some snap => s.doc.withChildren snap.children
      | none => s.doc
    failCalls := s.failCalls + 1 }

/-- The shape of an action handed to `AtomEditOperation.run`: a primitive
tree mutation (which may raise), sequencing, or a nested
`runAtomOperation` call. -/
inductive EditAction : Type where
  | prim (f : SheetNode → Except String SheetNode)
  | andThen (a b : EditAction)
  | nested (a : EditAction)

/-- The body of an action running while the nesting counter is `c`:
primitives mutate the tree or raise; sequencing stops at the first
failure; a nested `AtomEditOperation.run` call (lines 77-91) raises the
counter, runs its body, and performs `endOperation(failed)` (lines
67-75): `onDone` fires when the counter is back at zero with no failure,
`onFailed` fires whenever the frame observed a failure, and the original
error is re-raised.  The nested case inlines that begin/end bookkeeping
so the interpreter is structurally recursive; `execRun` below is the
same bookkeeping for the outermost frame. -/
def execBody : EditAction → Nat → EditorState → Except String Unit × EditorState
  | .prim f, _, s =>
    match f s.doc with
    | .ok d => (.ok (), { s with doc := d })
    | .error e => (.error e, s)
  | .andThen a b, c, s =>
    match execBody a c s with
    | (.ok _, s1) => execBody b c s1
    | (.error e, s1) => (.error e, s1)
  | .nested a, c, s =>
    match execBody a (c + 1) s with
    | (.ok u, s1) => (.ok u, if c = 0 then s1.addHistory else s1)
    | (.error e, s1) => (.error e, s1.restoreNewestHistory)

/-- `AtomEditOperation.run` (lines 77-91) entered while the nesting
counter is `c`: `beginOperation` raises the counter, the body runs, and
`endOperation(failed)` commits through `onDone` exactly when the counter
returned to zero without failure, and rolls back through `onFailed` on
failure, re-raising the original error. -/
def execRun (a : EditAction) (c : Nat) (s : EditorState) :
    Except String Unit × EditorState :=
  match execBody a (c + 1) s with
  | (.ok u, s1) => (.ok u, if c = 0 then s1.addHistory else s1)
  | (.error e, s1) => (.error e, s1.restoreNewestHistory)

/-- A nested coordinator entry is exactly `execRun` at the current
counter. -/
theorem execBody_nested_eq_execRun (a : EditAction) (c : Nat) (s : EditorState) :
    execBody (.nested a) c s = execRun a c s := rfl

namespace SheetEditorCore

/-- The editor constructor (lines 144-150): the history is seeded with a
clone of the root. -/
def init (key : Int) (root : SheetNode) : EditorState :=
  { sheetKey := key, doc := root, hist := Hist.init root, doneCalls := 0, failCalls := 0 }

/-- `SheetEditorCore.runAtomOperation` (lines 178-181): enter the
coordinator with the counter at zero. -/
def runAtomOperation (s : EditorState) (a : EditAction) :
    Except String Unit × EditorState :=
  execRun a 0 s

/-- `UndoableEditor.undo` (lines 113-116) combined with
`SheetEditorCore.setFromHistory` (line 153): assert `canUndo`, move the
cursor back, and replace the live children with the snapshot there. -/
def undo (s : EditorState) : Except String EditorState :=
  if s.hist.hasPrev then
    match s.hist.entries[s.hist.cursor - 1]? with
    | some snap =>
      .ok { s with doc := s.doc.withChildren snap.children,
                   hist := ⟨s.hist.entries, s.hist.cursor - 1⟩ }
    | none => .error "history entry missing"
  else .error "no more history for undo"

/-- `UndoableEditor.redo` (lines 118-121) combined with
`SheetEditorCore.setFromHistory`. -/
def redo (s : EditorState) : Except String EditorState :=
  if s.hist.hasNext then
    match s.hist.entries[s.hist.cursor + 1]? with
    | some snap =>
      .ok { s with doc := s.doc.withChildren snap.children,
                   hist := ⟨s.hist.entries, s.hist.cursor + 1⟩ }
    | none => .error "history entry missing"
  else .error "no more history for redo"

/-- `SheetEditorCore.updateContent` (lines 227-256) as an editor command:
its body runs inside one atom operation. -/
def updateContent (s : EditorState) (p : NodePath) (content : String) :
    Except String Unit × EditorState :=
  runAtomOperation s (.prim fun d => updateContentOp d p content)

/-- `SheetEditorCore.addUnderlineForChord` (lines 277-379) as an editor
command. -/
def addUnderlineForChord (s : EditorState) (p : NodePath) :
    Except String Unit × EditorState :=
  runAtomOperation s (.prim fun d => addUnderlineForChordOp d p)

/-- `SheetEditorCore.removeUnderlineFromChordToNext` (lines 384-477) as
an editor command. -/
def removeUnderlineFromChordToNext (s : EditorState) (p : NodePath) :
    Except String Unit × EditorState :=
  runAtomOperation s (.prim fun d => removeUnderlineFromChordToNextOp d p)

/-- `SheetEditorCore.insert` (lines 648-683) as an editor command, the
input provider result injected as `provided`. -/
def insert (s : EditorState) (p : NodePath) (ty : InsertType) (insertBefore : Bool)
    (provided : String) : Except String Unit × EditorState :=
  runAtomOperation s (.prim fun d => insertOp d p ty insertBefore provided)

end SheetEditorCore

mutual

/-- The chord rewrite of `setKey` (lines 638-645): `traverseDFS` visits
every node and shifts the chord data of chord-family nodes by the
offset.  `Chord.shiftKey` is modelled from the spec (section 1: applying
a precomputed transposition offset to the chord data). -/
def mapChordShift (offset : Int) : SheetNode → SheetNode
  | .mk t c h ch =>
    .mk t c (if (SheetNode.mk t c h ch).isChord then h + offset else h)
      (mapChordShiftList offset ch)

def mapChordShiftList (offset : Int) : List SheetNode → List SheetNode
  | [] => []
  | x :: xs => mapChordShift offset x :: mapChordShiftList offset xs

end

/-- `SheetEditorCore.setKey` (lines 633-646): equal keys are a no-op;
otherwise the metadata key is overwritten and, when requested, every
chord is transposed.  `Key.isEqual` and `Key.getOffset` are modelled
from the spec as equality and difference of abstract keys.  Note the
source wraps none of this in an atom operation. -/
def SheetEditorCore.setKey (s : EditorState) (newKey : Int) (shiftChord : Bool) :
    EditorState :=
  if newKey = s.sheetKey then s
  else
    { s with
      sheetKey := newKey
      doc := if shiftChord then mapChordShift (newKey - s.sheetKey) s.doc else s.doc }

/-- One committed transaction replacing the sheet children with `t`: the
shape of any successful top-level mutation as the undo bridge sees it. -/
def commitChildren (s : EditorState) (t : List SheetNode) : EditorState :=
  (SheetEditorCore.runAtomOperation s (.prim fun d => .ok (d.withChildren t))).2

/-- A sequence of committed transactions. -/
def commitSeq : EditorState → List (List SheetNode) → EditorState
  | s, [] => s
  | s, t :: ts => commitSeq (commitChildren s t) ts

/-- `undo` iterated, failing on the first failing step. -/
def undoN : Nat → EditorState → Except String EditorState
  | 0, s => .ok s
  | n + 1, s =>
    match SheetEditorCore.undo s with
    | .ok s1 => undoN n s1
    | .error e => .error e

/-- `redo` iterated, failing on the first failing step. -/
def redoN : Nat → EditorState → Except String EditorState
  | 0, s => .ok s
  | n + 1, s =>
    match SheetEditorCore.redo s with
    | .ok s1 => redoN n s1
    | .error e => .error e

/-- The contribution of a node itself to the flattened leaf-content
sequence: `Text`, `Chord`, `ChordPure` and `Mark` contents count. -/
def leafLead (n : SheetNode) : List String :=
  if n.type = ENodeType.Text || n.type = ENodeType.Chord
    || n.type = ENodeType.ChordPure || n.type = ENodeType.Mark
  then [n.content] else []

mutual

/-- The flattened leaf-content sequence of a subtree in document order. -/
def flattenContents : SheetNode → List String
  | .mk t c h ch => leafLead (.mk t c h ch) ++ flattenContentsList ch

def flattenContentsList : List SheetNode → List String
  | [] => []
  | x :: xs => flattenContents x ++ flattenContentsList xs

end

/-- All nodes of a subtree, the subtree root included. -/
def subtreeNodes (n : SheetNode) : List SheetNode := (preorder n []).map (·.2)

/-- Does the subtree rooted at `n` contain a node of type `t`? -/
def containsType (n : SheetNode) (t : ENodeType) : Bool :=
  (subtreeNodes n).any fun m => m.type = t

/-- Invariant I1, begin half, for one underline node: resolving the
first child recursively through nested underlines reaches a chord-family
node. -/
def firstAnchorIsChord : SheetNode → Bool
  | .mk _ _ _ ch =>
    match ch with
    | [] => false
    | c0 :: _ =>
      if c0.isChord then true
      else if c0.isUnderline then firstAnchorIsChord c0
      else false

/-- Invariant I1, end half, for one underline node: the last-child walk
is the first-child walk of the mirrored tree. -/
def lastAnchorIsChord (n : SheetNode) : Bool :=
  firstAnchorIsChord (reverseTree n)

/-- Invariant I1 of the spec (section 3, anchor rule) as a checker over
a whole tree. -/
def checkI1 (root : SheetNode) : Bool :=
  (subtreeNodes root).all fun m =>
    !m.isUnderline || (firstAnchorIsChord m && lastAnchorIsChord m)

/-- Invariant I2 of the spec (section 3, purity rule) as a checker over
a whole tree: no underline subtree holds both chord purities, and an
underline tag matches the purity of its chord descendants. -/
def checkI2 (root : SheetNode) : Bool :=
  (subtreeNodes root).all fun m =>
    !m.isUnderline ||
      (!(containsType m ENodeType.Chord && containsType m ENodeType.ChordPure)
        && (m.type != ENodeType.Underline || !containsType m ENodeType.ChordPure)
        && (m.type != ENodeType.UnderlinePure || !containsType m ENodeType.Chord))

namespace SheetNode

theorem withChildren_type (n : SheetNode) (L : List SheetNode) :
    (n.withChildren L).type = n.type := by cases n <;> rfl

theorem withChildren_content (n : SheetNode) (L : List SheetNode) :
    (n.withChildren L).content = n.content := by cases n <;> rfl

theorem withChildren_children (n : SheetNode) (L : List SheetNode) :
    (n.withChildren L).children = L := by cases n <;> rfl

theorem withChildren_isUnderline (n : SheetNode) (L : List SheetNode) :
    (n.withChildren L).isUnderline = n.isUnderline := by cases n <;> rfl

theorem withChildren_self (n : SheetNode) : n.withChildren n.children = n := by
  cases n <;> rfl

theorem getAt_nil (n : SheetNode) : n.getAt [] = some n := rfl

theorem getAt_append (n : SheetNode) (p q : NodePath) :
    n.getAt (p ++ q) = (n.getAt p).bind fun m => m.getAt q := by
  induction p generalizing n with
  | nil => simp [getAt]
  | cons i p ih =>
    simp only [List.cons_append, getAt]
    cases n.children[i]? with
    | none => rfl
    | some c => exact ih c

theorem getAt_snoc (n : SheetNode) (q : NodePath) (k : Nat) :
    n.getAt (q ++ [k]) = (n.getAt q).bind fun par => par.children[k]? := by
  rw [getAt_append]
  cases n.getAt q with
  | none => rfl
  | some par =>
    show par.getAt [k] = par.children[k]?
    simp only [getAt]
    cases par.children[k]? <;> rfl

theorem modifyAt_eq_some_of_getAt (n : SheetNode) (p : NodePath)
    (f : SheetNode → SheetNode) (m : SheetNode) (h : n.getAt p = some m) :
    ∃ r, n.modifyAt p f = some r := by
  induction p generalizing n with
  | nil => exact ⟨f n, rfl⟩
  | cons i p ih =>
    cases hc : n.children[i]? with
    | none => simp [getAt, hc] at h
    | some c =>
      simp only [getAt, hc] at h
      obtain ⟨r0, hr0⟩ := ih c h
      exact ⟨n.withChildren (n.children.set i r0), by simp only [modifyAt, hc, hr0]⟩

theorem getAt_modifyAt_self (n : SheetNode) (p : NodePath) (f : SheetNode → SheetNode)
    (m r : SheetNode) (hm : n.getAt p = some m) (hr : n.modifyAt p f = some r) :
    r.getAt p = some (f m) := by
  induction p generalizing n r with
  | nil =>
    simp only [getAt_nil, Option.some.injEq] at hm
    simp only [modifyAt, Option.some.injEq] at hr
    subst hm; subst hr; rfl
  | cons i p ih =>
    cases hc : n.children[i]? with
    | none => simp [getAt, hc] at hm
    | some c =>
      simp only [getAt, hc] at hm
      cases hc2 : c.modifyAt p f with
      | none => simp [modifyAt, hc, hc2] at hr
      | some c2 =>
        simp only [modifyAt, hc, hc2, Option.some.injEq] at hr
        have hlt : i < n.children.length := (List.getElem?_eq_some_iff.mp hc).1
        subst hr
        have hget : (n.children.set i c2)[i]? = some c2 := by
          simp [List.getElem?_set_self (by simpa using hlt)]
        simp only [getAt, withChildren_children, hget]
        exact ih c c2 hm hc2

theorem modifyAt_modifyAt (n : SheetNode) (p : NodePath) (f g : SheetNode → SheetNode)
    (r : SheetNode) (hf : n.modifyAt p f = some r) :
    r.modifyAt p g = n.modifyAt p fun x => g (f x) := by
  induction p generalizing n r with
  | nil =>
    simp only [modifyAt, Option.some.injEq] at hf
    subst hf; rfl
  | cons i p ih =>
    cases hc : n.children[i]? with
    | none => simp [getAt, modifyAt, hc] at hf
    | some c =>
      cases hc2 : c.modifyAt p f with
      | none => simp [modifyAt, hc, hc2] at hf
      | some c2 =>
        simp only [modifyAt, hc, hc2, Option.some.injEq] at hf
        have hlt : i < n.children.length := (List.getElem?_eq_some_iff.mp hc).1
        subst hf
        have hget : (n.children.set i c2)[i]? = some c2 := by
          simp [List.getElem?_set_self (by simpa using hlt)]
        simp only [modifyAt, withChildren_children, hget, hc, ih c c2 hc2]
        cases hc3 : c.modifyAt p fun x => g (f x) with
        | none => rfl
        | some c3 =>
          simp only [Option.some.injEq]
          cases n with
          | mk t cc hh ch => simp [withChildren, List.set_set]

theorem modifyAt_snoc (n : SheetNode) (q : NodePath) (k : Nat)
    (f : SheetNode → SheetNode) (ch : SheetNode) (hch : n.getAt (q ++ [k]) = some ch) :
    n.modifyAt (q ++ [k]) f
      = n.modifyAt q fun par => par.withChildren (par.children.set k (f ch)) := by
  induction q generalizing n with
  | nil =>
    rw [getAt_snoc] at hch
    simp only [getAt_nil] at hch
    have hk : n.children[k]? = some ch := by simpa using hch
    simp [modifyAt, hk]
  | cons i q ih =>
    cases hc : n.children[i]? with
    | none => simp only [List.cons_append, modifyAt, hc]
    | some c =>
      have hch2 : c.getAt (q ++ [k]) = some ch := by
        have := hch
        rw [List.cons_append] at this
        simpa [getAt, hc] using this
      simp only [List.cons_append, modifyAt, hc, List.append_eq, ih c hch2]

end SheetNode

theorem flattenContentsList_append (a b : List SheetNode) :
    flattenContentsList (a ++ b) = flattenContentsList a ++ flattenContentsList b := by
  induction a with
  | nil => rfl
  | cons x xs ih => simp [flattenContentsList, ih, List.append_assoc]

theorem flattenContents_eq (n : SheetNode) :
    flattenContents n = leafLead n ++ flattenContentsList n.children := by
  cases n <;> rfl

theorem leafLead_withChildren (n : SheetNode) (L : List SheetNode) :
    leafLead (n.withChildren L) = leafLead n := by
  simp [leafLead, SheetNode.withChildren_type, SheetNode.withChildren_content]

theorem flattenContents_withChildren (n : SheetNode) (L : List SheetNode) :
    flattenContents (n.withChildren L) = leafLead n ++ flattenContentsList L := by
  rw [flattenContents_eq, leafLead_withChildren, SheetNode.withChildren_children]

theorem flattenContentsList_decompose (L : List SheetNode) (i : Nat) (x : SheetNode)
    (h : L[i]? = some x) :
    flattenContentsList L
      = flattenContentsList (L.take i) ++ flattenContents x
        ++ flattenContentsList (L.drop (i + 1)) := by
  obtain ⟨hlt, hx⟩ := List.getElem?_eq_some_iff.mp h
  have hdrop : L.drop i = x :: L.drop (i + 1) := by
    rw [List.drop_eq_getElem_cons hlt, hx]
  conv_lhs => rw [← List.take_append_drop i L]
  rw [flattenContentsList_append, hdrop]
  simp [flattenContentsList, List.append_assoc]

theorem flattenContentsList_set (L : List SheetNode) (i : Nat) (x y : SheetNode)
    (h : L[i]? = some x) :
    flattenContentsList (L.set i y)
      = flattenContentsList (L.take i) ++ flattenContents y
        ++ flattenContentsList (L.drop (i + 1)) := by
  obtain ⟨hlt, _⟩ := List.getElem?_eq_some_iff.mp h
  rw [List.set_eq_take_cons_drop _ hlt, flattenContentsList_append]
  simp [flattenContentsList, List.append_assoc]

/-- Rewriting one node without changing its local flattened contents
keeps the flattened contents of the whole tree. -/
theorem flattenContents_modifyAt (n : SheetNode) (p : NodePath)
    (f : SheetNode → SheetNode) (r : SheetNode) (hr : n.modifyAt p f = some r)
    (hf : ∀ m, n.getAt p = some m → flattenContents (f m) = flattenContents m) :
    flattenContents r = flattenContents n := by
  induction p generalizing n r with
  | nil =>
    simp only [SheetNode.modifyAt, Option.some.injEq] at hr
    subst hr
    exact hf n rfl
  | cons i p ih =>
    cases hc : n.children[i]? with
    | none => simp [SheetNode.modifyAt, hc] at hr
    | some c =>
      cases hc2 : c.modifyAt p f with
      | none => simp [SheetNode.modifyAt, hc, hc2] at hr
      | some c2 =>
        simp only [SheetNode.modifyAt, hc, hc2, Option.some.injEq] at hr
        subst hr
        have hf2 : ∀ m, c.getAt p = some m → flattenContents (f m) = flattenContents m := by
          intro m hm
          exact hf m (by simp [SheetNode.getAt, hc, hm])
        have hflat : flattenContents c2 = flattenContents c := ih c c2 hc2 hf2
        rw [flattenContents_withChildren,
          flattenContentsList_set n.children i c c2 hc,
          flattenContents_eq n,
          flattenContentsList_decompose n.children i c hc, hflat]

theorem bind_eq_ok {α β : Type} {e : Except String α} {k : α → Except String β}
    {r : β} (h : (e >>= k) = .ok r) : ∃ a, e = .ok a ∧ k a = .ok r := by
  cases e with
  | ok a => exact ⟨a, rfl, h⟩
  | error msg => exact absurd h (by simp [error_bind])

theorem ensure_eq_ok {b : Bool} {msg : String} (h : ensure b msg = .ok ()) : b = true := by
  cases b with
  | true => rfl
  | false => simpa [ensure] using h

theorem orFail_eq_ok {α : Type} {o : Option α} {msg : String} {a : α}
    (h : orFail o msg = .ok a) : o = some a := by
  cases o with
  | some x => simpa [orFail] using h
  | none => simpa [orFail] using h

theorem take_length_take {α : Type} (l : List α) (m : Nat) :
    l.take (l.take m).length = l.take m := by
  rw [List.length_take]
  rcases le_total m l.length with h | h
  · rw [Nat.min_eq_left h]
  · rw [Nat.min_eq_right h, List.take_of_length_le h, List.take_of_length_le (le_refl _)]

/-- Any list splits as a prefix, a possibly truncated middle slice, and
the tail after that slice. -/
theorem drop_take_decomp {α : Type} (L : List α) (i m : Nat) :
    L.drop i = (L.drop i).take m ++ L.drop (i + ((L.drop i).take m).length) := by
  conv_lhs => rw [← List.take_append_drop ((L.drop i).take m).length (L.drop i)]
  rw [take_length_take, List.drop_drop]

theorem set_self_of_getElem {α : Type} (l : List α) (i : Nat) (a : α)
    (h : l[i]? = some a) : l.set i a = l := by
  obtain ⟨hlt, ha⟩ := List.getElem?_eq_some_iff.mp h
  rw [List.set_eq_take_cons_drop a hlt, ← ha, ← List.drop_eq_getElem_cons hlt,
    List.take_append_drop]

/-- Setting index `u` of `take (u + 1)` replaces the final element. -/
theorem take_succ_set {α : Type} (l : List α) (u : Nat) (x a : α)
    (h : l[u]? = some a) : (l.take (u + 1)).set u x = l.take u ++ [x] := by
  obtain ⟨hlt, _⟩ := List.getElem?_eq_some_iff.mp h
  have hlt2 : u < (l.take (u + 1)).length := by
    rw [List.length_take]
    omega
  rw [List.set_eq_take_cons_drop x hlt2, List.take_take, List.drop_take]
  have h1 : min u (u + 1) = u := by omega
  have h2 : u + 1 - (u + 1) = 0 := by omega
  rw [h1, h2]
  simp

theorem leafLead_createUnderlineNode (b : Bool) (ch : List SheetNode) :
    leafLead (NodeUtils.createUnderlineNode b ch) = [] := by
  cases b <;> rfl

theorem leafLead_eq_nil_of_isUnderline (n : SheetNode) (h : n.isUnderline = true) :
    leafLead n = [] := by
  cases n with
  | mk t c hh ch =>
    cases t <;> simp_all [SheetNode.isUnderline, SheetNode.type, leafLead]

theorem flattenContents_createUnderlineNode (b : Bool) (ch : List SheetNode) :
    flattenContents (NodeUtils.createUnderlineNode b ch) = flattenContentsList ch := by
  rw [flattenContents_eq, leafLead_createUnderlineNode]
  cases b <;> rfl

/-- The two paths differ right after their longest common prefix. -/
theorem commonAncestorPath_get_ne (p q : NodePath) (x y : Nat)
    (hx : p[(NodeUtils.commonAncestorPath p q).length]? = some x)
    (hy : q[(NodeUtils.commonAncestorPath p q).length]? = some y) : x ≠ y := by
  induction p generalizing q with
  | nil => simp at hx
  | cons a as ih =>
    cases q with
    | nil => simp at hy
    | cons b bs =>
      by_cases hab : a = b
      · subst hab
        rw [NodeUtils.commonAncestorPath] at hx hy
        simp only [if_pos rfl, List.length_cons] at hx hy
        exact ih bs (by simpa using hx) (by simpa using hy)
      · rw [NodeUtils.commonAncestorPath] at hx hy
        simp only [if_neg hab, List.length_nil] at hx hy
        simp only [List.getElem?_cons_zero, Option.some.injEq] at hx hy
        subst hx
        subst hy
        exact hab

/-- Wrapping a possibly truncated slice of a children list into one new
node whose flattened contents are exactly the slice keeps the flattened
list. -/
theorem flatList_wrap_slice (L : List SheetNode) (i m : Nat) (U : SheetNode)
    (hU : flattenContents U = flattenContentsList ((L.drop i).take m)) :
    flattenContentsList
        (L.take i ++ [U] ++ L.drop (i + ((L.drop i).take m).length))
      = flattenContentsList L := by
  conv_rhs => rw [← List.take_append_drop i L]
  conv_rhs => rw [drop_take_decomp L i m]
  rw [flattenContentsList_append, flattenContentsList_append,
    flattenContentsList_append]
  simp [flattenContentsList, hU, flattenContentsList_append, List.append_assoc]

/-- A node of the children list absorbing the slice that follows it (the
slice removed from the list, re-appended inside the node) keeps the
flattened list. -/
theorem flatList_absorb_after (L : List SheetNode) (u m : Nat) (U U2 : SheetNode)
    (hU : L[u]? = some U)
    (h2 : flattenContents U2
        = flattenContents U ++ flattenContentsList ((L.drop (u + 1)).take m)) :
    flattenContentsList ((L.take (u + 1)).set u U2
        ++ L.drop (u + 1 + ((L.drop (u + 1)).take m).length))
      = flattenContentsList L := by
  rw [take_succ_set L u U2 U hU]
  conv_rhs => rw [flattenContentsList_decompose L u U hU]
  conv_rhs => rw [drop_take_decomp L (u + 1) m]
  rw [flattenContentsList_append, flattenContentsList_append,
    flattenContentsList_append]
  simp [flattenContentsList, h2, flattenContentsList_append, List.append_assoc]

theorem flat_withChildren_append (U : SheetNode) (ext : List SheetNode) :
    flattenContents (U.withChildren (U.children ++ ext))
      = flattenContents U ++ flattenContentsList ext := by
  rw [flattenContents_withChildren, flattenContentsList_append, flattenContents_eq U,
    List.append_assoc]

theorem flat_addUnderlineSameLevel (root : SheetNode) (sp ep pp : NodePath)
    (i j : Nat) (r : SheetNode)
    (h : addUnderlineSameLevel root sp ep pp i j = .ok r) :
    flattenContents r = flattenContents root := by
  unfold addUnderlineSameLevel at h
  obtain ⟨parentNode, hpar0, h⟩ := bind_eq_ok h
  have hpar := orFail_eq_ok hpar0
  obtain ⟨_, _, h⟩ := bind_eq_ok h
  obtain ⟨_, _, h⟩ := bind_eq_ok h
  obtain ⟨_, _, h⟩ := bind_eq_ok h
  have hmod := orFail_eq_ok h
  refine flattenContents_modifyAt root pp _ r hmod ?_
  intro m hm
  rw [hpar] at hm
  obtain rfl := Option.some.inj hm
  rw [flattenContents_withChildren, flattenContents_eq parentNode]
  congr 1
  simp only [NodeUtils.slice]
  exact flatList_wrap_slice parentNode.children i (j + 1 - i) _
    (flattenContents_createUnderlineNode _ _)

theorem flat_addUnderlineExtendForward (root : SheetNode) (sp ep : NodePath)
    (r : SheetNode) (h : addUnderlineExtendForward root sp ep = .ok r) :
    flattenContents r = flattenContents root := by
  unfold addUnderlineExtendForward at h
  obtain ⟨uIdx, hu0, h⟩ := bind_eq_ok h
  obtain ⟨U, hU0, h⟩ := bind_eq_ok h
  have hUget := orFail_eq_ok hU0
  obtain ⟨_, _, h⟩ := bind_eq_ok h
  obtain ⟨endChord, _, h⟩ := bind_eq_ok h
  obtain ⟨_, _, h⟩ := bind_eq_ok h
  obtain ⟨j, _, h⟩ := bind_eq_ok h
  obtain ⟨parentNode, hpar0, h⟩ := bind_eq_ok h
  have hpar := orFail_eq_ok hpar0
  have hmod := orFail_eq_ok h
  have hUchild : parentNode.children[uIdx]? = some U := by
    rw [SheetNode.getAt_snoc, hpar] at hUget
    simpa using hUget
  refine flattenContents_modifyAt root _ _ r hmod ?_
  intro m hm
  rw [hpar] at hm
  obtain rfl := Option.some.inj hm
  rw [flattenContents_withChildren, flattenContents_eq parentNode]
  congr 1
  simp only [NodeUtils.slice]
  exact flatList_absorb_after parentNode.children uIdx (j + 1 - (uIdx + 1)) U _ hUchild
    (flat_withChildren_append U _)

mutual

/-- Does every node of the tree that owns children carry no leaf content
of its own?  This holds of every sheet document: content lives on
`Text`/`Chord`/`ChordPure`/`Mark` leaves, while children belong to the
root and to underline spans (spec section 3). -/
def containersContentFree : SheetNode → Bool
  | .mk t c h ch =>
    (decide (ch = []) || decide (leafLead (.mk t c h ch) = []))
      && containersContentFreeList ch

def containersContentFreeList : List SheetNode → Bool
  | [] => true
  | x :: xs => containersContentFree x && containersContentFreeList xs

end

theorem containersContentFreeList_getElem (L : List SheetNode) (i : Nat)
    (c : SheetNode) (hL : containersContentFreeList L = true) (hc : L[i]? = some c) :
    containersContentFree c = true := by
  induction L generalizing i with
  | nil => simp at hc
  | cons x xs ih =>
    rw [containersContentFreeList, Bool.and_eq_true] at hL
    cases i with
    | zero => simp only [List.getElem?_cons_zero, Option.some.injEq] at hc; exact hc ▸ hL.1
    | succ i2 => exact ih i2 hL.2 (by simpa using hc)

/-- The container condition is hereditary along paths. -/
theorem containersContentFree_getAt (root : SheetNode) (p : NodePath) (m : SheetNode)
    (hfree : containersContentFree root = true) (hm : root.getAt p = some m) :
    containersContentFree m = true := by
  induction p generalizing root with
  | nil => exact (Option.some.inj hm) ▸ hfree
  | cons i p ih =>
    cases hc : root.children[i]? with
    | none => simp [SheetNode.getAt, hc] at hm
    | some c =>
      simp only [SheetNode.getAt, hc] at hm
      refine ih c ?_ hm
      cases root with
      | mk t cc hh ch =>
        rw [containersContentFree, Bool.and_eq_true] at hfree
        exact containersContentFreeList_getElem ch i c hfree.2 (by simpa [SheetNode.children] using hc)

theorem leafLead_of_contentFree_parent (n : SheetNode)
    (hfree : containersContentFree n = true) (hch : n.children ≠ []) :
    leafLead n = [] := by
  cases n with
  | mk t c h ch =>
    rw [containersContentFree, Bool.and_eq_true] at hfree
    rcases Bool.or_eq_true_iff.mp hfree.1 with h1 | h1
    · exact absurd (of_decide_eq_true h1) (by simpa [SheetNode.children] using hch)
    · exact of_decide_eq_true h1

mutual

/-- Every entry of the pre-order listing is reachable: its path extends
the base path and `getAt` finds its node there. -/
theorem getAt_of_mem_preorder :
    ∀ (n : SheetNode) (p0 : NodePath) (e : NodePath × SheetNode),
      e ∈ preorder n p0 → ∃ rest, e.1 = p0 ++ rest ∧ n.getAt rest = some e.2
  | .mk t c h ch, p0, e => by
    intro he
    rw [preorder] at he
    rcases List.mem_cons.mp he with he0 | heL
    · exact ⟨[], by simp [he0], by rw [he0]; exact rfl⟩
    · obtain ⟨i, rest, c2, hc2, ha, hb⟩ := getAt_of_mem_preorderList ch p0 0 e heL
      refine ⟨[0 + i] ++ rest, by simpa using ha, ?_⟩
      simp only [Nat.zero_add, List.cons_append, List.nil_append, SheetNode.getAt,
        SheetNode.children, hc2]
      simpa using hb

theorem getAt_of_mem_preorderList :
    ∀ (L : List SheetNode) (p0 : NodePath) (k : Nat) (e : NodePath × SheetNode),
      e ∈ preorderList L p0 k →
        ∃ i rest c, L[i]? = some c ∧ e.1 = p0 ++ [k + i] ++ rest
          ∧ c.getAt rest = some e.2
  | [], _, _, e => by intro he; simp [preorderList] at he
  | c :: cs, p0, k, e => by
    intro he
    rw [preorderList] at he
    rcases List.mem_append.mp he with h1 | h2
    · obtain ⟨rest, h1a, h1b⟩ := getAt_of_mem_preorder c (p0 ++ [k]) e h1
      exact ⟨0, rest, c, by simp, by simpa [List.append_assoc] using h1a, h1b⟩
    · obtain ⟨i, rest, c2, hc2, ha, hb⟩ := getAt_of_mem_preorderList cs p0 (k + 1) e h2
      refine ⟨i + 1, rest, c2, by simpa using hc2, ?_, hb⟩
      have : k + 1 + i = k + (i + 1) := by omega
      rw [← this]
      exact ha

end

theorem getAt_of_mem_preorder_root (root : SheetNode) (q : NodePath) (m : SheetNode)
    (h : (q, m) ∈ preorder root []) : root.getAt q = some m := by
  obtain ⟨rest, h1, h2⟩ := getAt_of_mem_preorder root [] (q, m) h
  simp only [List.nil_append] at h1
  rw [h1]
  exact h2

/-- A path returned by the forward search is valid and points at a node
of the requested type. -/
theorem findNext_valid (root : SheetNode) (p : NodePath) (t : ENodeType) (q : NodePath)
    (h : NodeUtils.findNextNodeByType root p t = some q) :
    ∃ m, root.getAt q = some m ∧ m.type = t := by
  simp only [NodeUtils.findNextNodeByType] at h
  cases hidx : (preorder root []).findIdx? (fun e => decide (e.1 = p)) with
  | none => rw [hidx] at h; simp at h
  | some i =>
    rw [hidx] at h
    obtain ⟨e, hfind, he1⟩ := Option.map_eq_some'.mp h
    have hmem : e ∈ preorder root [] :=
      List.drop_subset _ _ (List.mem_of_find?_eq_some hfind)
    have hpred := List.find?_some hfind
    refine ⟨e.2, ?_, by simpa using hpred⟩
    rw [← he1]
    exact getAt_of_mem_preorder_root root e.1 e.2 hmem

theorem flat_addUnderlineExtendBackward (root : SheetNode) (sp ep : NodePath)
    (r : SheetNode)
    (hfree : containersContentFree root = true)
    (hpre : sp.dropLast.isPrefixOf ep = true)
    (hner : sp.dropLast ≠ ep.dropLast)
    (hvalid : ∃ ec, root.getAt ep = some ec)
    (h : addUnderlineExtendBackward root sp ep = .ok r) :
    flattenContents r = flattenContents root := by
  unfold addUnderlineExtendBackward at h
  obtain ⟨uIdx, hu0, h⟩ := bind_eq_ok h
  have huidx := orFail_eq_ok hu0
  obtain ⟨U, hU0, h⟩ := bind_eq_ok h
  have hUget := orFail_eq_ok hU0
  obtain ⟨_, _, h⟩ := bind_eq_ok h
  obtain ⟨startChord, _, h⟩ := bind_eq_ok h
  obtain ⟨_, _, h⟩ := bind_eq_ok h
  obtain ⟨i, hi0, h⟩ := bind_eq_ok h
  obtain ⟨parentNode, hpar0, h⟩ := bind_eq_ok h
  have hpar := orFail_eq_ok hpar0
  have hmod := orFail_eq_ok h
  have hUchild : parentNode.children[uIdx]? = some U := by
    have h2 := hUget
    rw [SheetNode.getAt_snoc, hpar] at h2
    simpa using h2
  have hulen : uIdx < parentNode.children.length :=
    (List.getElem?_eq_some_iff.mp hUchild).1
  -- the absorbing ancestor strictly contains the end chord, so it owns
  -- children and, by the container condition, no leaf content
  have hlead : leafLead U = [] := by
    obtain ⟨ec, hec⟩ := hvalid
    obtain ⟨t, ht⟩ := List.isPrefixOf_iff_prefix.mp hpre
    cases t with
    | nil =>
      rw [← ht, List.append_nil] at huidx
      rw [List.getElem?_eq_none (le_refl _)] at huidx
      exact absurd huidx (by simp)
    | cons t0 t' =>
      have ht0 : t0 = uIdx := by
        have h4 := huidx
        rw [← ht] at h4
        rw [List.getElem?_append_right (by omega)] at h4
        simpa using h4
      rw [ht0] at ht
      cases t' with
      | nil =>
        exfalso
        apply hner
        rw [← ht]
        simp
      | cons s0 s' =>
        have hUc : U.getAt (s0 :: s') = some ec := by
          have h3 : root.getAt ((sp.dropLast ++ [uIdx]) ++ (s0 :: s')) = some ec := by
            rw [List.append_assoc]
            simpa [ht] using hec
          rw [SheetNode.getAt_append, hUget] at h3
          simpa using h3
        have hne : U.children ≠ [] := by
          intro hempty
          simp [SheetNode.getAt, hempty] at hUc
        exact leafLead_of_contentFree_parent U
          (containersContentFree_getAt root _ U hfree hUget) hne
  refine flattenContents_modifyAt root _ _ r hmod ?_
  intro m hm
  rw [hpar] at hm
  obtain rfl := Option.some.inj hm
  by_cases hiu : i < uIdx
  · rw [if_pos hiu]
    rw [flattenContents_withChildren, flattenContents_eq parentNode]
    congr 1
    simp only [NodeUtils.slice]
    have hlenb : ((parentNode.children.drop i).take (uIdx - i)).length = uIdx - i := by
      rw [List.length_take, List.length_drop]
      omega
    have hidx2 : i + (uIdx - i) = uIdx := by omega
    conv_rhs => rw [← List.take_append_drop i parentNode.children]
    conv_rhs => rw [drop_take_decomp parentNode.children i (uIdx - i)]
    rw [hlenb, hidx2]
    rw [flattenContentsList_append, flattenContentsList_append,
      flattenContentsList_append, flattenContentsList_append]
    have hdropU : parentNode.children.drop uIdx
        = U :: parentNode.children.drop (uIdx + 1) := by
      rw [List.drop_eq_getElem_cons hulen,
        (List.getElem?_eq_some_iff.mp hUchild).2]
    rw [hdropU]
    have hU2 : flattenContents
        (U.withChildren ((parentNode.children.drop i).take (uIdx - i) ++ U.children))
        = flattenContentsList ((parentNode.children.drop i).take (uIdx - i))
          ++ flattenContents U := by
      rw [flattenContents_withChildren, hlead, flattenContentsList_append,
        flattenContents_eq U, hlead]
      simp
    simp [flattenContentsList, hU2, List.append_assoc]
  · rw [if_neg hiu]
    have hzero : uIdx - i = 0 := by omega
    have hU2U : U.withChildren
        ((NodeUtils.slice parentNode.children i uIdx) ++ U.children) = U := by
      simp only [NodeUtils.slice, hzero, List.take_zero, List.nil_append]
      exact SheetNode.withChildren_self U
    rw [hU2U, set_self_of_getElem _ _ _ hUchild, SheetNode.withChildren_self]

/-- Replacing two content-free nodes and the slice between them by one
node holding all their flattened contents keeps the flattened list. -/
theorem flatList_merge (L : List SheetNode) (a b : Nat) (lU rU M : SheetNode)
    (hab : a < b) (ha : L[a]? = some lU) (hb : L[b]? = some rU)
    (hla : leafLead lU = []) (hlb : leafLead rU = [])
    (hM : flattenContents M
        = flattenContentsList lU.children
          ++ flattenContentsList ((L.drop (a + 1)).take (b - (a + 1)))
          ++ flattenContentsList rU.children) :
    flattenContentsList (L.take a ++ [M] ++ L.drop (b + 1))
      = flattenContentsList L := by
  have hblt : b < L.length := (List.getElem?_eq_some_iff.mp hb).1
  have hlen : ((L.drop (a + 1)).take (b - (a + 1))).length = b - (a + 1) := by
    rw [List.length_take, List.length_drop]
    omega
  have harith : a + 1 + ((L.drop (a + 1)).take (b - (a + 1))).length = b := by
    rw [hlen]
    omega
  conv_rhs => rw [flattenContentsList_decompose L a lU ha]
  conv_rhs => rw [drop_take_decomp L (a + 1) (b - (a + 1))]
  rw [harith]
  have hdropb : L.drop b = rU :: L.drop (b + 1) := by
    rw [List.drop_eq_getElem_cons hblt, (List.getElem?_eq_some_iff.mp hb).2]
  rw [hdropb]
  rw [flattenContentsList_append, flattenContentsList_append,
    flattenContentsList_append]
  have hflU : flattenContents lU = flattenContentsList lU.children := by
    rw [flattenContents_eq, hla, List.nil_append]
  have hfrU : flattenContents rU = flattenContentsList rU.children := by
    rw [flattenContents_eq, hlb, List.nil_append]
  simp [flattenContentsList, hM, hflU, hfrU, List.append_assoc]

theorem flat_addUnderlineMerge (root : SheetNode) (sp ep : NodePath) (r : SheetNode)
    (h : addUnderlineMerge root sp ep = .ok r) :
    flattenContents r = flattenContents root := by
  unfold addUnderlineMerge at h
  obtain ⟨sIdx, hs0, h⟩ := bind_eq_ok h
  obtain ⟨eIdx, he0, h⟩ := bind_eq_ok h
  obtain ⟨sU, hsU0, h⟩ := bind_eq_ok h
  have hsUget := orFail_eq_ok hsU0
  obtain ⟨eU, heU0, h⟩ := bind_eq_ok h
  have heUget := orFail_eq_ok heU0
  obtain ⟨u1, hund0, h⟩ := bind_eq_ok h
  obtain ⟨u2, hne0, h⟩ := bind_eq_ok h
  obtain ⟨u3, _, h⟩ := bind_eq_ok h
  obtain ⟨parentNode, hpar0, h⟩ := bind_eq_ok h
  have hpar := orFail_eq_ok hpar0
  have hmod := orFail_eq_ok h
  have hsChild : parentNode.children[sIdx]? = some sU := by
    have h2 := hsUget
    rw [SheetNode.getAt_snoc, hpar] at h2
    simpa using h2
  have heChild : parentNode.children[eIdx]? = some eU := by
    have h2 := heUget
    rw [SheetNode.getAt_snoc, hpar] at h2
    simpa using h2
  have hund : (sU.isUnderline && eU.isUnderline) = true := by
    cases u1
    exact ensure_eq_ok hund0
  have hneIdx : sIdx ≠ eIdx := by
    cases u2
    exact of_decide_eq_true (ensure_eq_ok hne0)
  have hu2 : sU.isUnderline = true ∧ eU.isUnderline = true := by
    simpa [Bool.and_eq_true] using hund
  refine flattenContents_modifyAt root _ _ r hmod ?_
  intro m hm
  rw [hpar] at hm
  obtain rfl := Option.some.inj hm
  rw [flattenContents_withChildren, flattenContents_eq parentNode]
  congr 1
  simp only [NodeUtils.slice]
  by_cases hle : sIdx ≤ eIdx
  · have hmin : min sIdx eIdx = sIdx := Nat.min_eq_left hle
    have hmax : max sIdx eIdx = eIdx := Nat.max_eq_right hle
    simp only [if_pos hle, hmin, hmax]
    refine flatList_merge parentNode.children sIdx eIdx sU eU _ (by omega)
      hsChild heChild
      (leafLead_eq_nil_of_isUnderline sU hu2.1)
      (leafLead_eq_nil_of_isUnderline eU hu2.2) ?_
    rw [flattenContents_createUnderlineNode, flattenContentsList_append,
      flattenContentsList_append]
  · have hlt : eIdx < sIdx := by omega
    have hmin : min sIdx eIdx = eIdx := Nat.min_eq_right (by omega)
    have hmax : max sIdx eIdx = sIdx := Nat.max_eq_left (by omega)
    simp only [if_neg hle, hmin, hmax]
    refine flatList_merge parentNode.children eIdx sIdx eU sU _ (by omega)
      heChild hsChild
      (leafLead_eq_nil_of_isUnderline eU hu2.2)
      (leafLead_eq_nil_of_isUnderline sU hu2.1) ?_
    rw [flattenContents_createUnderlineNode, flattenContentsList_append,
      flattenContentsList_append]

theorem flat_addUnderlineForChordOp (root : SheetNode) (p : NodePath) (r : SheetNode)
    (hfree : containersContentFree root = true)
    (h : addUnderlineForChordOp root p = .ok r) :
    flattenContents r = flattenContents root := by
  unfold addUnderlineForChordOp at h
  obtain ⟨chordNode, hc0, h⟩ := bind_eq_ok h
  obtain ⟨u1, _, h⟩ := bind_eq_ok h
  obtain ⟨nextPath, hn0, h⟩ := bind_eq_ok h
  have hnext := orFail_eq_ok hn0
  dsimp only at h
  by_cases hpe : p = []
  · subst hpe
    by_cases hee : nextPath = []
    · subst hee
      simp at h
    · rw [if_pos rfl, if_neg hee] at h
      simp at h
      exact flat_addUnderlineMerge root [] nextPath r h
  · rw [if_neg hpe] at h
    by_cases hee : nextPath = []
    · subst hee
      rw [if_pos rfl] at h
      simp [hpe] at h
      exact flat_addUnderlineMerge root p [] r h
    · rw [if_neg hee] at h
      split at h
      · -- same level
        split at h
        · exact flat_addUnderlineSameLevel root p nextPath _ _ _ r h
        · exact absurd h (by simp)
      · rename_i hne1
        split at h
        · -- start nested, end outer
          exact flat_addUnderlineExtendForward root p nextPath r h
        · split at h
          · -- end nested, start outer
            rename_i hne2 hcond
            have hcond2 : (p.dropLast.isPrefixOf nextPath
                && decide (p.dropLast.length < nextPath.length)) = true := hcond
            obtain ⟨hpre, hlen0⟩ := Bool.and_eq_true_iff.mp hcond2
            have hlen := of_decide_eq_true hlen0
            have hner : p.dropLast ≠ nextPath.dropLast := by
              intro heq
              exact hne1 (by rw [heq])
            obtain ⟨ec, hec, _⟩ := findNext_valid root p chordNode.type nextPath hnext
            exact flat_addUnderlineExtendBackward root p nextPath r hfree hpre hner
              ⟨ec, hec⟩ h
          · -- merge
            exact flat_addUnderlineMerge root p nextPath r h

theorem flat_removeUnderlineDissolve (root : SheetNode) (commonPath : NodePath)
    (r : SheetNode)
    (hund : ∀ C, root.getAt commonPath = some C → C.isUnderline = true)
    (h : removeUnderlineDissolve root commonPath = .ok r) :
    flattenContents r = flattenContents root := by
  unfold removeUnderlineDissolve at h
  obtain ⟨C, hC0, h⟩ := bind_eq_ok h
  have hCget := orFail_eq_ok hC0
  obtain ⟨ci, hci0, h⟩ := bind_eq_ok h
  have hci := orFail_eq_ok hci0
  obtain ⟨parentNode, hpar0, h⟩ := bind_eq_ok h
  have hpar := orFail_eq_ok hpar0
  have hmod := orFail_eq_ok h
  have hcp : commonPath.dropLast ++ [ci] = commonPath :=
    List.dropLast_append_getLast? ci (Option.mem_def.mpr hci)
  have hchild : parentNode.children[ci]? = some C := by
    have h2 := hCget
    rw [← hcp, SheetNode.getAt_snoc, hpar] at h2
    simpa using h2
  have hlead : leafLead C = [] := leafLead_eq_nil_of_isUnderline C (hund C hCget)
  refine flattenContents_modifyAt root _ _ r hmod ?_
  intro m hm
  rw [hpar] at hm
  obtain rfl := Option.some.inj hm
  rw [flattenContents_withChildren, flattenContents_eq parentNode]
  congr 1
  conv_rhs => rw [flattenContentsList_decompose parentNode.children ci C hchild]
  rw [flattenContentsList_append, flattenContentsList_append,
    flattenContents_eq C, hlead]
  simp [List.append_assoc]

theorem flat_removeUnderlineShrinkTail (root : SheetNode) (commonPath : NodePath)
    (si : Nat) (r : SheetNode)
    (h : removeUnderlineShrinkTail root commonPath si = .ok r) :
    flattenContents r = flattenContents root := by
  unfold removeUnderlineShrinkTail at h
  obtain ⟨C, hC0, h⟩ := bind_eq_ok h
  have hCget := orFail_eq_ok hC0
  obtain ⟨startNode, _, h⟩ := bind_eq_ok h
  obtain ⟨_, _, h⟩ := bind_eq_ok h
  obtain ⟨_, _, h⟩ := bind_eq_ok h
  obtain ⟨ci, hci0, h⟩ := bind_eq_ok h
  have hci := orFail_eq_ok hci0
  obtain ⟨parentNode, hpar0, h⟩ := bind_eq_ok h
  have hpar := orFail_eq_ok hpar0
  have hmod := orFail_eq_ok h
  have hcp : commonPath.dropLast ++ [ci] = commonPath :=
    List.dropLast_append_getLast? ci (Option.mem_def.mpr hci)
  have hchild : parentNode.children[ci]? = some C := by
    have h2 := hCget
    rw [← hcp, SheetNode.getAt_snoc, hpar] at h2
    simpa using h2
  refine flattenContents_modifyAt root _ _ r hmod ?_
  intro m hm
  rw [hpar] at hm
  obtain rfl := Option.some.inj hm
  rw [flattenContents_withChildren, flattenContents_eq parentNode]
  congr 1
  conv_rhs => rw [flattenContentsList_decompose parentNode.children ci C hchild]
  rw [flattenContentsList_append, flattenContentsList_append,
    flattenContentsList_append]
  have hC2 : flattenContents (C.withChildren (C.children.take (si + 1)))
      = leafLead C ++ flattenContentsList (C.children.take (si + 1)) :=
    flattenContents_withChildren C _
  have hdec : flattenContentsList (C.children.take (si + 1))
        ++ flattenContentsList (C.children.drop (si + 1))
      = flattenContentsList C.children := by
    rw [← flattenContentsList_append, List.take_append_drop]
  simp only [flattenContentsList, hC2, flattenContents_eq C]
  simp [List.append_assoc, ← hdec]

theorem flat_removeUnderlineShrinkHead (root : SheetNode) (commonPath : NodePath)
    (ei : Nat) (r : SheetNode)
    (hund : ∀ C, root.getAt commonPath = some C → C.isUnderline = true)
    (h : removeUnderlineShrinkHead root commonPath ei = .ok r) :
    flattenContents r = flattenContents root := by
  unfold removeUnderlineShrinkHead at h
  obtain ⟨C, hC0, h⟩ := bind_eq_ok h
  have hCget := orFail_eq_ok hC0
  obtain ⟨endNode, _, h⟩ := bind_eq_ok h
  obtain ⟨_, _, h⟩ := bind_eq_ok h
  obtain ⟨_, _, h⟩ := bind_eq_ok h
  obtain ⟨ci, hci0, h⟩ := bind_eq_ok h
  have hci := orFail_eq_ok hci0
  obtain ⟨parentNode, hpar0, h⟩ := bind_eq_ok h
  have hpar := orFail_eq_ok hpar0
  have hmod := orFail_eq_ok h
  have hcp : commonPath.dropLast ++ [ci] = commonPath :=
    List.dropLast_append_getLast? ci (Option.mem_def.mpr hci)
  have hchild : parentNode.children[ci]? = some C := by
    have h2 := hCget
    rw [← hcp, SheetNode.getAt_snoc, hpar] at h2
    simpa using h2
  have hlead : leafLead C = [] := leafLead_eq_nil_of_isUnderline C (hund C hCget)
  refine flattenContents_modifyAt root _ _ r hmod ?_
  intro m hm
  rw [hpar] at hm
  obtain rfl := Option.some.inj hm
  rw [flattenContents_withChildren, flattenContents_eq parentNode]
  congr 1
  conv_rhs => rw [flattenContentsList_decompose parentNode.children ci C hchild]
  rw [flattenContentsList_append, flattenContentsList_append,
    flattenContentsList_append]
  have hC2 : flattenContents (C.withChildren (C.children.drop ei))
      = flattenContentsList (C.children.drop ei) := by
    rw [flattenContents_withChildren, hlead, List.nil_append]
  have hdec : flattenContentsList (C.children.take ei)
        ++ flattenContentsList (C.children.drop ei)
      = flattenContentsList C.children := by
    rw [← flattenContentsList_append, List.take_append_drop]
  simp only [flattenContentsList, hC2, flattenContents_eq C, hlead]
  simp [List.append_assoc, ← hdec]

theorem flat_removeUnderlineSplit (root : SheetNode) (commonPath : NodePath)
    (si ei : Nat) (r : SheetNode)
    (hne : si ≠ ei)
    (h : removeUnderlineSplit root commonPath si ei = .ok r) :
    flattenContents r = flattenContents root := by
  unfold removeUnderlineSplit at h
  obtain ⟨C, hC0, h⟩ := bind_eq_ok h
  have hCget := orFail_eq_ok hC0
  obtain ⟨u1, hundC0, h⟩ := bind_eq_ok h
  have hundC : C.isUnderline = true := by
    cases u1
    exact ensure_eq_ok hundC0
  obtain ⟨startNode, hs0, h⟩ := bind_eq_ok h
  have hsget := orFail_eq_ok hs0
  obtain ⟨endNode, he0, h⟩ := bind_eq_ok h
  have heget := orFail_eq_ok he0
  obtain ⟨_, _, h⟩ := bind_eq_ok h
  obtain ⟨_, _, h⟩ := bind_eq_ok h
  obtain ⟨ci, hci0, h⟩ := bind_eq_ok h
  have hci := orFail_eq_ok hci0
  obtain ⟨parentNode, hpar0, h⟩ := bind_eq_ok h
  have hpar := orFail_eq_ok hpar0
  have hmod := orFail_eq_ok h
  have hcp : commonPath.dropLast ++ [ci] = commonPath :=
    List.dropLast_append_getLast? ci (Option.mem_def.mpr hci)
  have hchild : parentNode.children[ci]? = some C := by
    have h2 := hCget
    rw [← hcp, SheetNode.getAt_snoc, hpar] at h2
    simpa using h2
  have hlead : leafLead C = [] := leafLead_eq_nil_of_isUnderline C hundC
  have hse : min si ei < max si ei := by
    rcases Nat.lt_or_ge si ei with h2 | h2
    · rw [Nat.min_eq_left (by omega), Nat.max_eq_right (by omega)]
      exact h2
    · have h3 : ei < si := by omega
      rw [Nat.min_eq_right (by omega), Nat.max_eq_left (by omega)]
      exact h3
  have helt : max si ei < C.children.length :=
    (List.getElem?_eq_some_iff.mp heget).1
  refine flattenContents_modifyAt root _ _ r hmod ?_
  intro m hm
  rw [hpar] at hm
  obtain rfl := Option.some.inj hm
  rw [flattenContents_withChildren, flattenContents_eq parentNode]
  congr 1
  conv_rhs => rw [flattenContentsList_decompose parentNode.children ci C hchild]
  simp only [NodeUtils.slice]
  rw [flattenContentsList_append, flattenContentsList_append,
    flattenContentsList_append, flattenContentsList_append]
  have hmid : flattenContentsList (C.children.take (min si ei + 1))
        ++ flattenContentsList
            ((C.children.drop (min si ei + 1)).take (max si ei - (min si ei + 1)))
        ++ flattenContentsList (C.children.drop (max si ei))
      = flattenContentsList C.children := by
    have hlen : ((C.children.drop (min si ei + 1)).take
        (max si ei - (min si ei + 1))).length = max si ei - (min si ei + 1) := by
      rw [List.length_take, List.length_drop]
      omega
    have harith : min si ei + 1 + ((C.children.drop (min si ei + 1)).take
        (max si ei - (min si ei + 1))).length = max si ei := by
      rw [hlen]
      omega
    conv_rhs => rw [← List.take_append_drop (min si ei + 1) C.children]
    conv_rhs => rw [drop_take_decomp C.children (min si ei + 1)
      (max si ei - (min si ei + 1))]
    rw [harith, flattenContentsList_append, flattenContentsList_append,
      List.append_assoc]
  simp only [flattenContentsList, flattenContents_createUnderlineNode,
    flattenContents_eq C, hlead]
  simp [List.append_assoc, ← hmid]

theorem flat_removeUnderlineFromChordToNextOp (root : SheetNode) (p : NodePath)
    (r : SheetNode) (h : removeUnderlineFromChordToNextOp root p = .ok r) :
    flattenContents r = flattenContents root := by
  unfold removeUnderlineFromChordToNextOp at h
  obtain ⟨chordNode, _, h⟩ := bind_eq_ok h
  obtain ⟨_, _, h⟩ := bind_eq_ok h
  dsimp only at h
  split at h
  · simp [error_bind] at h
  · obtain ⟨parentPath, _, h⟩ := bind_eq_ok h
    obtain ⟨parentNode, _, h⟩ := bind_eq_ok h
    obtain ⟨_, _, h⟩ := bind_eq_ok h
    obtain ⟨i, _, h⟩ := bind_eq_ok h
    obtain ⟨_, _, h⟩ := bind_eq_ok h
    obtain ⟨nextChordPath, _, h⟩ := bind_eq_ok h
    obtain ⟨commonNode, hcn0, h⟩ := bind_eq_ok h
    have hcn := orFail_eq_ok hcn0
    obtain ⟨u2, hundC0, h⟩ := bind_eq_ok h
    have hundC : commonNode.isUnderline = true := by
      cases u2
      exact ensure_eq_ok hundC0
    obtain ⟨si, hsi0, h⟩ := bind_eq_ok h
    have hsi := orFail_eq_ok hsi0
    obtain ⟨ei, hei0, h⟩ := bind_eq_ok h
    have hei := orFail_eq_ok hei0
    have hund : ∀ C, root.getAt (NodeUtils.commonAncestorPath p nextChordPath) = some C
        → C.isUnderline = true := by
      intro C hC
      rw [hcn] at hC
      obtain rfl := Option.some.inj hC
      exact hundC
    have hne : si ≠ ei := commonAncestorPath_get_ne p nextChordPath si ei hsi hei
    split at h
    · simp [error_bind] at h
    · obtain ⟨nextParentPath, _, h⟩ := bind_eq_ok h
      obtain ⟨nextParentNode, _, h⟩ := bind_eq_ok h
      obtain ⟨j, _, h⟩ := bind_eq_ok h
      split at h
      · exact flat_removeUnderlineDissolve root _ r hund h
      · split at h
        · exact flat_removeUnderlineShrinkTail root _ si r h
        · split at h
          · exact flat_removeUnderlineShrinkHead root _ ei r hund h
          · exact flat_removeUnderlineSplit root _ si ei r hne h

/-- A chord-family node of the given purity. -/
def chordOf (isPure : Bool) (c : String) (h : Int) : SheetNode :=
  .mk (if isPure then ENodeType.ChordPure else ENodeType.Chord) c h []

/-- An underline node of the given purity. -/
def underlineOf (isPure : Bool) (children : List SheetNode) : SheetNode :=
  .mk (if isPure then ENodeType.UnderlinePure else ENodeType.Underline) "" 0 children

/-- C7: for a root whose children are exactly three sibling chord nodes
of one purity with no underline present, `addUnderlineForChord` on the
first chord succeeds and the children become exactly
`[Underline[C1, C2], C3]`, the new underline purity matching the
chords. -/
theorem addUnderline_three_sibling_chords (isPure : Bool) (c1 c2 c3 : String)
    (h1 h2 h3 : Int) :
    addUnderlineForChordOp
      (.mk .Root "" 0 [chordOf isPure c1 h1, chordOf isPure c2 h2, chordOf isPure c3 h3])
      [0]
    = .ok (.mk .Root "" 0
        [underlineOf isPure [chordOf isPure c1 h1, chordOf isPure c2 h2],
         chordOf isPure c3 h3]) := by
  cases isPure <;> rfl

/-- The C8 scenario tree: one underline holding exactly three chords. -/
def threeChordUnderline : SheetNode :=
  .mk .Root "" 0
    [.mk .Underline "" 0 [.mk .Chord "a" 1 [], .mk .Chord "b" 2 [], .mk .Chord "c" 3 []]]

/-- What the code produces for the C8 scenario: the shrink-head result. -/
def threeChordUnderlineActual : SheetNode :=
  .mk .Root "" 0
    [.mk .Chord "a" 1 [],
     .mk .Underline "" 0 [.mk .Chord "b" 2 [], .mk .Chord "c" 3 []]]

/-- What the claim predicts for the C8 scenario: the shrink-tail result. -/
def threeChordUnderlineClaimed : SheetNode :=
  .mk .Root "" 0
    [.mk .Underline "" 0 [.mk .Chord "a" 1 [], .mk .Chord "b" 2 []],
     .mk .Chord "c" 3 []]

/-- C8 counterexample: on `Underline[C1, C2, C3]` the removal anchored at
`C1` takes the shrink-head branch (the chord is the first sibling, the
next chord is not the last), producing `C1` followed by
`Underline[C2, C3]` — not the `Underline[C1, C2]` then `C3` the claim
states. -/
theorem removeUnderline_shrink_head_counterexample :
    removeUnderlineFromChordToNextOp threeChordUnderline [0, 0]
        = .ok threeChordUnderlineActual
      ∧ threeChordUnderlineActual ≠ threeChordUnderlineClaimed :=
  ⟨rfl, by decide⟩

/-- C8 amended: on an underline with exactly three chord children of one
purity, removal anchored at the first chord takes the shrink-head case
and produces `C1` followed by `Underline[C2, C3]`. -/
theorem removeUnderline_first_of_three (isPure : Bool) (c1 c2 c3 : String)
    (h1 h2 h3 : Int) :
    removeUnderlineFromChordToNextOp
      (.mk .Root "" 0
        [underlineOf isPure [chordOf isPure c1 h1, chordOf isPure c2 h2, chordOf isPure c3 h3]])
      [0, 0]
    = .ok (.mk .Root "" 0
        [chordOf isPure c1 h1,
         underlineOf isPure [chordOf isPure c2 h2, chordOf isPure c3 h3]]) := by
  cases isPure <;> rfl

/-- The C2 failing input: a `Chord` underline, then a stray `ChordPure`,
then a `Chord`, all invariants holding. -/
def mixedPurityStart : SheetNode :=
  .mk .Root "" 0
    [.mk .Underline "" 0 [.mk .Chord "a" 0 [], .mk .Chord "b" 0 []],
     .mk .ChordPure "p" 0 [],
     .mk .Chord "c" 0 []]

/-- What the code produces on the C2 failing input: the extend-forward
branch absorbs the `ChordPure` into the `Chord` underline unchecked. -/
def mixedPurityResult : SheetNode :=
  .mk .Root "" 0
    [.mk .Underline "" 0
      [.mk .Chord "a" 0 [], .mk .Chord "b" 0 [],
       .mk .ChordPure "p" 0 [], .mk .Chord "c" 0 []]]

theorem SheetNode.withChildren_withChildren (n : SheetNode) (L M : List SheetNode) :
    (n.withChildren L).withChildren M = n.withChildren M := by cases n <;> rfl

theorem SheetNode.modifyAt_congr (n : SheetNode) (p : NodePath)
    (f g : SheetNode → SheetNode) (m : SheetNode) (hm : n.getAt p = some m)
    (hfg : f m = g m) : n.modifyAt p f = n.modifyAt p g := by
  induction p generalizing n with
  | nil =>
    simp only [getAt_nil, Option.some.injEq] at hm
    subst hm
    simp [modifyAt, hfg]
  | cons i p ih =>
    cases hc : n.children[i]? with
    | none => simp [modifyAt, hc]
    | some c =>
      simp only [getAt, hc] at hm
      simp only [modifyAt, hc, ih c hm]

/-- When the node is not the last child of an underline parent, the
insert-after walk stays put. -/
theorem walkOutLast_stop (root : SheetNode) (pp : NodePath) (i : Nat)
    (parent : SheetNode) (hpar : root.getAt pp = some parent)
    (hcond : ¬(parent.isUnderline = true ∧ i + 1 = parent.children.length)) :
    walkOutLast root (pp ++ [i]) = pp ++ [i] := by
  unfold walkOutLast
  rw [List.reverse_append]
  simp only [List.reverse_cons, List.reverse_nil, List.nil_append, List.singleton_append]
  unfold walkOutLastAux
  rw [List.reverse_reverse, hpar]
  have hb : (parent.isUnderline && decide (i + 1 = parent.children.length)) = false := by
    by_cases hu : parent.isUnderline = true
    · simp only [hu, Bool.true_and, decide_eq_false_iff_not]
      exact fun hlen => hcond ⟨hu, hlen⟩
    · rw [Bool.not_eq_true] at hu
      simp [hu]
  simp [hb]

/-- The C9 counterexample tree: a chord that is the last child of an
underline, followed by a chord outside it. -/
def chordAtUnderlineTail : SheetNode :=
  .mk .Root "" 0
    [.mk .Underline "" 0 [.mk .Chord "x" 0 [], .mk .Chord "y" 0 []],
     .mk .Chord "z" 0 []]

/-- What the code produces: the overflow text node lands after the
underline, because `insertAfter` walks the insertion point out of
underline tails. -/
def chordAtUnderlineTailActual : SheetNode :=
  .mk .Root "" 0
    [.mk .Underline "" 0 [.mk .Chord "x" 0 [], .mk .Chord "a" 0 []],
     .mk .Text "b" 0 [],
     .mk .Chord "z" 0 []]

/-- What the claim predicts: the overflow text node immediately after
the chord, inside the underline. -/
def chordAtUnderlineTailClaimed : SheetNode :=
  .mk .Root "" 0
    [.mk .Underline "" 0
      [.mk .Chord "x" 0 [], .mk .Chord "a" 0 [], .mk .Text "b" 0 []],
     .mk .Chord "z" 0 []]

/-- C9 counterexample: updating the content of a chord that is the last
child of an underline stores the first character on the node, but the
remaining character is inserted after the enclosing underline (the
`insertAfter` walk of lines 193-196), not immediately after the node as
the claim states. -/
theorem updateContent_walks_out_of_underline :
    updateContentOp chordAtUnderlineTail [0, 1] "ab" = .ok chordAtUnderlineTailActual
      ∧ chordAtUnderlineTailActual ≠ chordAtUnderlineTailClaimed :=
  ⟨rfl, by decide⟩

/-- C9 (amended): for `updateContent` on a `Text` or `Chord` node of
single-character content sitting at child index `i` of `parent`, when
the node is not the last child of an enclosing underline: empty content
fails, and non-empty content stores the first character on the node and
inserts the remaining characters as new sibling single-character text
nodes immediately after it, one per character, in original order.  (When
the node is the last child of an underline, the counterexample shows the
insertion point walks out of the underline first.) -/
theorem updateContent_splits_content (root : SheetNode) (pp : NodePath) (i : Nat)
    (parent node : SheetNode) (content : String)
    (hpar : root.getAt pp = some parent)
    (hnode : parent.children[i]? = some node)
    (htype : node.type = ENodeType.Text ∨ node.type = ENodeType.Chord)
    (hlen : node.content.length = 1)
    (hcont : 0 < content.length)
    (hwalk : ¬(parent.isUnderline = true ∧ i + 1 = parent.children.length)) :
    updateContentOp root (pp ++ [i]) "" = .error "new content must not be empty"
    ∧ ∃ r, updateContentOp root (pp ++ [i]) content = .ok r
        ∧ root.modifyAt pp (fun par => par.withChildren
            (parent.children.take i
              ++ [node.withContent (content.take 1)]
              ++ NodeUtils.createTextNodes (content.drop 1)
              ++ parent.children.drop (i + 1))) = some r := by
  have hnp : root.getAt (pp ++ [i]) = some node := by
    rw [SheetNode.getAt_snoc, hpar]
    simpa using hnode
  have hi : i < parent.children.length := (List.getElem?_eq_some_iff.mp hnode).1
  have htypeB : (decide (node.type = ENodeType.Text) || decide (node.type = ENodeType.Chord)
      || decide (node.type = ENodeType.Mark)) = true := by
    rcases htype with h | h <;> simp [h]
  have hTC : (decide (node.type = ENodeType.Text)
      || decide (node.type = ENodeType.Chord)) = true := by
    rcases htype with h | h <;> simp [h]
  have hlenB : decide (node.content.length = 1) = true := decide_eq_true hlen
  set node2 := node.withContent (content.take 1) with hnode2
  set f1 : SheetNode → SheetNode :=
    fun par => par.withChildren (par.children.set i node2) with hf1
  have hmod1 : root.modifyAt (pp ++ [i]) (fun n => n.withContent (content.take 1))
      = root.modifyAt pp f1 :=
    SheetNode.modifyAt_snoc root pp i _ node hnp
  obtain ⟨r1, hr1⟩ := SheetNode.modifyAt_eq_some_of_getAt root pp f1 parent hpar
  have hSet : parent.children.set i node2
      = parent.children.take i ++ node2 :: parent.children.drop (i + 1) :=
    List.set_eq_take_cons_drop node2 hi
  refine ⟨?_, ?_⟩
  · rcases htype with h | h <;>
      simp [updateContentOp, hnp, orFail_some, ok_bind, error_bind, ensure, h]
  · by_cases hrem : 0 < (content.drop 1).length
    · -- overflow characters exist: they go through insertAfter
      have hcontB : decide (content.length > 0) = true := decide_eq_true hcont
      have hremB : decide ((content.drop 1).length > 0) = true := decide_eq_true hrem
      have hpar1 : r1.getAt pp = some (f1 parent) :=
        SheetNode.getAt_modifyAt_self root pp f1 parent r1 hpar hr1
      have hwalk1 : walkOutLast r1 (pp ++ [i]) = pp ++ [i] := by
        refine walkOutLast_stop r1 pp i (f1 parent) hpar1 ?_
        rw [hf1]
        rw [SheetNode.withChildren_isUnderline, SheetNode.withChildren_children,
          List.length_set]
        exact hwalk
      set tns := NodeUtils.createTextNodes (content.drop 1) with htns
      set g2 : SheetNode → SheetNode := fun par =>
        par.withChildren (par.children.take (i + 1) ++ tns ++ par.children.drop (i + 1))
        with hg2
      have hcomp : r1.modifyAt pp g2 = root.modifyAt pp fun x => g2 (f1 x) :=
        SheetNode.modifyAt_modifyAt root pp f1 g2 r1 hr1
      have htake : (parent.children.set i node2).take (i + 1)
          = parent.children.take i ++ [node2] := by
        rw [hSet]
        have hlt : (parent.children.take i).length = i := by
          rw [List.length_take]
          omega
        have := @List.take_append _ (parent.children.take i)
          (node2 :: parent.children.drop (i + 1)) 1
        rw [hlt] at this
        simpa using this
      have hdrop : (parent.children.set i node2).drop (i + 1)
          = parent.children.drop (i + 1) := by
        rw [hSet]
        have hlt : (parent.children.take i).length = i := by
          rw [List.length_take]
          omega
        have := @List.drop_append _ (parent.children.take i)
          (node2 :: parent.children.drop (i + 1)) 1
        rw [hlt] at this
        simpa using this
      have hcongr : (root.modifyAt pp fun x => g2 (f1 x))
          = root.modifyAt pp fun par => par.withChildren
              (parent.children.take i ++ [node2] ++ tns
                ++ parent.children.drop (i + 1)) := by
        refine SheetNode.modifyAt_congr root pp _ _ parent hpar ?_
        simp only [hg2, hf1]
        rw [SheetNode.withChildren_withChildren, SheetNode.withChildren_children,
          htake, hdrop]
      obtain ⟨r2, hr2⟩ := SheetNode.modifyAt_eq_some_of_getAt root pp
        (fun par => par.withChildren
          (parent.children.take i ++ [node2] ++ tns ++ parent.children.drop (i + 1)))
        parent hpar
      refine ⟨r2, ?_, by simpa [List.append_assoc] using hr2⟩
      have hchain : updateContentOp root (pp ++ [i]) content
          = insertAfterOp r1 (pp ++ [i]) tns := by
        simp only [htns]
        simp [updateContentOp, hnp, orFail_some, ok_bind, ensure, htypeB, hcontB,
          hlenB, hmod1, hr1]
        rw [if_pos htype, if_pos hrem, if_pos (Or.inl htype), if_pos hlen]
        rfl
      rw [hchain]
      simp only [insertAfterOp, hwalk1]
      rw [if_neg (by simp)]
      simp only [List.dropLast_concat, List.getLast?_concat, orFail_some, ok_bind]
      rw [← hg2, hcomp, hcongr, hr2]
      rfl
    · -- no overflow: the single character is stored in place
      have hcontB : decide (content.length > 0) = true := decide_eq_true hcont
      have hremB : decide ((content.drop 1).length > 0) = false := by
        simpa using hrem
      have hdone : content.drop 1 = "" := by
        have h0 : (content.drop 1).length = 0 := by omega
        have : (content.drop 1).data = [] := List.eq_nil_of_length_eq_zero h0
        cases hd : content.drop 1 with
        | mk data => rw [hd] at this; simp at this; rw [this]
      have htns0 : NodeUtils.createTextNodes (content.drop 1) = [] := by
        rw [hdone]; rfl
      have hcongr : root.modifyAt pp f1
          = root.modifyAt pp fun par => par.withChildren
              (parent.children.take i ++ [node2]
                ++ NodeUtils.createTextNodes (content.drop 1)
                ++ parent.children.drop (i + 1)) := by
        refine SheetNode.modifyAt_congr root pp _ _ parent hpar ?_
        simp only [hf1]
        rw [hSet, htns0]
        simp
      refine ⟨r1, ?_, by
        have h2 := hr1
        rw [hcongr] at h2
        simpa [List.append_assoc] using h2⟩
      have hrem2 : ¬0 < (content.drop 1).length := hrem
      simp [updateContentOp, hnp, orFail_some, ok_bind, ensure, htypeB, hcontB,
        hlenB, hmod1, hr1]
      rw [if_pos htype, if_neg hrem2, if_pos (Or.inl htype), if_pos hlen]
      rfl

/-- Witness for the amended C9 theorem at a concrete input: a root with
two chords, content update `ab` on the first. -/
theorem updateContent_splits_content_witness :
    updateContentOp (SheetNode.mk .Root "" 0 [.mk .Chord "x" 5 [], .mk .Chord "z" 6 []])
        ([] ++ [0]) "" = .error "new content must not be empty"
    ∧ ∃ r,
        updateContentOp (SheetNode.mk .Root "" 0 [.mk .Chord "x" 5 [], .mk .Chord "z" 6 []])
          ([] ++ [0]) "ab" = .ok r
        ∧ (SheetNode.mk .Root "" 0 [.mk .Chord "x" 5 [], .mk .Chord "z" 6 []]).modifyAt []
            (fun par => par.withChildren
              ((SheetNode.mk .Root "" 0
                  [.mk .Chord "x" 5 [], .mk .Chord "z" 6 []]).children.take 0
                ++ [(SheetNode.mk .Chord "x" 5 []).withContent ("ab".take 1)]
                ++ NodeUtils.createTextNodes ("ab".drop 1)
                ++ (SheetNode.mk .Root "" 0
                  [.mk .Chord "x" 5 [], .mk .Chord "z" 6 []]).children.drop (0 + 1)))
          = some r :=
  updateContent_splits_content _ [] 0 _ (.mk .Chord "x" 5 []) "ab" rfl rfl
    (Or.inr rfl) (by decide) (by decide) (by decide)

/-- C2: the extend-forward branch of `addUnderlineForChord` completes
successfully from a tree satisfying I1 and I2 yet produces an underline
mixing `Chord` and `ChordPure` descendants: invariant I2 does not hold
in every reachable state.  (The same-level branch checks purity, lines
302-311; the extend branches do not, contradicting the documented
constraint.) -/
theorem addUnderline_extend_breaks_purity :
    checkI1 mixedPurityStart = true ∧ checkI2 mixedPurityStart = true
      ∧ addUnderlineForChordOp mixedPurityStart [0, 1] = .ok mixedPurityResult
      ∧ checkI2 mixedPurityResult = false :=
  ⟨rfl, rfl, rfl, rfl⟩

/-- The C4 failing input: a root holding a chord and a content-bearing
`Text` node that itself contains a chord.  The containers of this tree
are not content-free: the `Text` node owns both content and children. -/
def contentBearingContainer : SheetNode :=
  .mk .Root "" 0
    [ .mk .Chord "c1" 0 []
    , .mk .Text "t" 0 [ .mk .Chord "c2" 0 [] ] ]

/-- What the code produces on the C4 failing input: the extend-backward
branch moves the first chord inside the `Text` node, so its content now
precedes the chord's. -/
def contentBearingContainerResult : SheetNode :=
  .mk .Root "" 0
    [ .mk .Text "t" 0 [ .mk .Chord "c1" 0 [], .mk .Chord "c2" 0 [] ] ]

/-- C4 counterexample: the underline-add operation anchored at the first
chord of `contentBearingContainer` completes successfully, yet the
flattened leaf-content sequence changes from `[c1, t, c2]` to
`[t, c1, c2]`: the claim fails for trees whose containers carry leaf
content of their own. -/
theorem addUnderline_reorders_contentful_container :
    addUnderlineForChordOp contentBearingContainer [0]
        = .ok contentBearingContainerResult
      ∧ flattenContents contentBearingContainerResult
        ≠ flattenContents contentBearingContainer :=
  ⟨rfl, by decide⟩

/-- C4 (amended): for every tree whose content is carried entirely by
childless leaves (no node owns both children and non-empty content) and
every path, a successful underline add anchored there — whichever of
its four branches runs — and a successful underline removal anchored
there — whichever of its four branches runs — both preserve the
flattened leaf-content sequence of the tree. -/
theorem underlineOps_preserve_flattened (root : SheetNode) (p : NodePath)
    (hfree : containersContentFree root = true) :
    (∀ r, addUnderlineForChordOp root p = .ok r
      → flattenContents r = flattenContents root)
    ∧ (∀ r, removeUnderlineFromChordToNextOp root p = .ok r
      → flattenContents r = flattenContents root) :=
  ⟨fun r h => flat_addUnderlineForChordOp root p r hfree h,
   fun r h => flat_removeUnderlineFromChordToNextOp root p r h⟩

/-- The C4 witness tree: three sibling chords under a content-free root. -/
def threeSiblingChords : SheetNode :=
  .mk .Root "" 0
    [ .mk .Chord "a" 0 [], .mk .Chord "b" 0 [], .mk .Chord "c" 0 [] ]

/-- Witness for the amended C4 theorem at a concrete content-free tree. -/
theorem underlineOps_preserve_flattened_witness :
    containersContentFree threeSiblingChords = true
    ∧ ((∀ r, addUnderlineForChordOp threeSiblingChords [0] = .ok r
        → flattenContents r = flattenContents threeSiblingChords)
      ∧ (∀ r, removeUnderlineFromChordToNextOp threeSiblingChords [0] = .ok r
        → flattenContents r = flattenContents threeSiblingChords)) :=
  ⟨by decide, underlineOps_preserve_flattened threeSiblingChords [0] (by decide)⟩

/-- Inside an enclosing frame (counter at least one) the interpreter
never touches the history or the `onDone` counter: `addHistory` fires
only when the counter is back at zero. -/
theorem execBody_frame_invariant (a : EditAction) :
    ∀ (c : Nat) (s : EditorState), 1 ≤ c
    → (execBody a c s).2.hist = s.hist ∧ (execBody a c s).2.doneCalls = s.doneCalls := by
  induction a with
  | prim f =>
    intro c s _
    simp only [execBody]
    cases f s.doc <;> simp
  | andThen a b iha ihb =>
    intro c s hc
    simp only [execBody]
    cases h1 : execBody a c s with
    | mk r s1 =>
      have ha := iha c s hc
      rw [h1] at ha
      cases r with
      | ok u =>
        have hb := ihb c s1 hc
        exact ⟨hb.1.trans ha.1, hb.2.trans ha.2⟩
      | error e => exact ha
  | nested a ih =>
    intro c s hc
    simp only [execBody]
    cases h1 : execBody a (c + 1) s with
    | mk r s1 =>
      have ha := ih (c + 1) s (by omega)
      rw [h1] at ha
      cases r with
      | ok u =>
        have hc0 : ¬ c = 0 := by omega
        simpa [hc0] using ha
      | error e =>
        simpa [EditorState.restoreNewestHistory] using ha

/-- A successful outermost transaction pushes exactly one snapshot — a
clone of the live tree — and fires `onDone` once. -/
theorem runAtom_ok_char (s : EditorState) (a : EditAction) (u : Unit) (s' : EditorState)
    (h : SheetEditorCore.runAtomOperation s a = (.ok u, s')) :
    s'.hist = s.hist.add MAX_UNDO_TIMES s'.doc ∧ s'.doneCalls = s.doneCalls + 1 := by
  have hinv := execBody_frame_invariant a 1 s (le_refl 1)
  unfold SheetEditorCore.runAtomOperation execRun at h
  cases h1 : execBody a 1 s with
  | mk r s1 =>
    rw [h1] at h hinv
    cases r with
    | error e => simp at h
    | ok u2 =>
      have hh : s1.hist = s.hist := hinv.1
      have hd : s1.doneCalls = s.doneCalls := hinv.2
      simp only [if_pos rfl] at h
      injection h with _ hs
      subst hs
      exact ⟨by simp [EditorState.addHistory, hh],
             by simp [EditorState.addHistory, hd]⟩

/-- A failing outermost transaction leaves the history untouched and
loads the newest committed snapshot's children into the live root. -/
theorem runAtom_error_char (s : EditorState) (a : EditAction) (e : String)
    (s' : EditorState)
    (h : SheetEditorCore.runAtomOperation s a = (.error e, s')) :
    s'.hist = s.hist
    ∧ (s.hist.current? = some s.doc → s'.doc.children = s.doc.children) := by
  have hinv := execBody_frame_invariant a 1 s (le_refl 1)
  unfold SheetEditorCore.runAtomOperation execRun at h
  cases h1 : execBody a 1 s with
  | mk r s1 =>
    rw [h1] at h hinv
    cases r with
    | ok u => simp at h
    | error e2 =>
      have hh : s1.hist = s.hist := hinv.1
      injection h with _ hs
      subst hs
      refine ⟨by simp [EditorState.restoreNewestHistory, hh], fun hcommit => ?_⟩
      simp [EditorState.restoreNewestHistory, hh, hcommit,
        SheetNode.withChildren_children]

/-- The C1 failing start: an uncommitted state built by a key shift, so
the live tree differs from the newest committed snapshot. -/
def uncommittedStart : EditorState :=
  SheetEditorCore.setKey
    (SheetEditorCore.init 0 (.mk .Root "" 0 [.mk .Chord "a" 0 []])) 2 true

/-- C1 counterexample: starting from a reachable uncommitted state (a
key shift never commits), a failing transaction does not restore the
pre-transaction tree — the rollback loads the newest committed snapshot
instead — though the history indeed gains nothing. -/
theorem failed_transaction_not_pretransaction_doc :
    (SheetEditorCore.runAtomOperation uncommittedStart
        (.prim fun _ => .error "boom")).1 = .error "boom"
    ∧ (SheetEditorCore.runAtomOperation uncommittedStart
        (.prim fun _ => .error "boom")).2.doc ≠ uncommittedStart.doc
    ∧ (SheetEditorCore.runAtomOperation uncommittedStart
        (.prim fun _ => .error "boom")).2.hist = uncommittedStart.hist :=
  ⟨rfl, by decide, rfl⟩

/-- C1 (amended): from a state whose live tree equals the newest
committed snapshot, a transaction that raises anywhere (nested frames
included) re-raises the failure, restores the sheet content — the
root's children — to its pre-transaction value and adds zero history
entries; a successful transaction pushes exactly one snapshot of the
resulting tree. -/
theorem transaction_atomicity (s : EditorState) (a : EditAction)
    (hcommit : s.hist.current? = some s.doc) :
    (∀ e s', SheetEditorCore.runAtomOperation s a = (.error e, s')
      → s'.doc.children = s.doc.children ∧ s'.hist = s.hist)
    ∧ (∀ u s', SheetEditorCore.runAtomOperation s a = (.ok u, s')
      → s'.hist = s.hist.add MAX_UNDO_TIMES s'.doc
        ∧ s'.doneCalls = s.doneCalls + 1) :=
  ⟨fun e s' h => ⟨(runAtom_error_char s a e s' h).2 hcommit,
    (runAtom_error_char s a e s' h).1⟩,
   fun u s' h => runAtom_ok_char s a u s' h⟩

/-- A freshly constructed editor: the seed snapshot equals the live tree. -/
def committedStart : EditorState :=
  SheetEditorCore.init 0 (.mk .Root "" 0 [.mk .Chord "a" 0 []])

/-- Witness for the amended C1 theorem at a committed concrete state. -/
theorem transaction_atomicity_witness :
    committedStart.hist.current? = some committedStart.doc
    ∧ ((∀ e s', SheetEditorCore.runAtomOperation committedStart
          (.prim fun _ => .error "boom") = (.error e, s')
        → s'.doc.children = committedStart.doc.children ∧ s'.hist = committedStart.hist)
      ∧ (∀ u s', SheetEditorCore.runAtomOperation committedStart
          (.prim fun _ => .error "boom") = (.ok u, s')
        → s'.hist = committedStart.hist.add MAX_UNDO_TIMES s'.doc
          ∧ s'.doneCalls = committedStart.doneCalls + 1)) :=
  ⟨rfl, transaction_atomicity committedStart (.prim fun _ => .error "boom") rfl⟩

/-- `k` nested coordinator entries wrapped around an action. -/
def nestK : Nat → EditAction → EditAction
  | 0, a => a
  | k + 1, a => .nested (nestK k a)

/-- The rollback callback applied `k` times in a row. -/
def restoreIter : Nat → EditorState → EditorState
  | 0, s => s
  | k + 1, s => (restoreIter k s).restoreNewestHistory

/-- A failing primitive under `k` nested frames unwinds through every
frame, each one invoking the rollback callback once. -/
theorem execBody_nestK_error (k : Nat) (e : String) :
    ∀ (c : Nat) (s : EditorState),
    execBody (nestK k (.prim fun _ => .error e)) c s = (.error e, restoreIter k s) := by
  induction k with
  | zero => intro c s; rfl
  | succ k ih =>
    intro c s
    simp only [nestK, execBody, ih, restoreIter]

/-- Each rollback invocation bumps the `onFailed` counter. -/
theorem restoreIter_failCalls (k : Nat) (s : EditorState) :
    (restoreIter k s).failCalls = s.failCalls + k := by
  induction k with
  | zero => rfl
  | succ k ih =>
    simp [restoreIter, EditorState.restoreNewestHistory, ih]
    omega

/-- The C5 starting state: a fresh editor around a one-leaf sheet. -/
def nestedFailStart : EditorState :=
  SheetEditorCore.init 0 (.mk .Root "" 0 [.mk .Text "x" 0 []])

/-- C5 counterexample: one nested frame whose primitive raises makes the
rollback callback fire twice — once when the inner frame exits and once
when the outermost frame exits — not exactly once; the original failure
is re-raised. -/
theorem nested_failure_rolls_back_twice :
    (SheetEditorCore.runAtomOperation nestedFailStart
        (.nested (.prim fun _ => .error "inner"))).1 = .error "inner"
    ∧ (SheetEditorCore.runAtomOperation nestedFailStart
        (.nested (.prim fun _ => .error "inner"))).2.failCalls
      = nestedFailStart.failCalls + 2 :=
  ⟨rfl, rfl⟩

/-- C5 (amended): when the innermost of `k + 1` coordinator frames
raises, the rollback callback fires once per frame — `k + 1` times in
all, not exactly once — because every frame's `endOperation` observes
the failure while unwinding; the original error is re-raised to the
caller. -/
theorem rollback_fires_once_per_frame (k : Nat) (e : String) (s : EditorState) :
    SheetEditorCore.runAtomOperation s (nestK k (.prim fun _ => .error e))
      = (.error e, restoreIter (k + 1) s)
    ∧ (restoreIter (k + 1) s).failCalls = s.failCalls + (k + 1) := by
  constructor
  · unfold SheetEditorCore.runAtomOperation execRun
    rw [execBody_nestK_error]
    rfl
  · exact restoreIter_failCalls (k + 1) s

/-- The C6 starting state: a fresh editor around one chord. -/
def keyShiftStart : EditorState :=
  SheetEditorCore.init 0 (.mk .Root "" 0 [.mk .Chord "g" 3 []])

/-- C6 counterexample: a key change with chord transposition mutates the
live tree yet leaves the history and the `onDone` counter untouched —
`setKey` never enters the operation coordinator, so no snapshot is
pushed and the key shift cannot be undone. -/
theorem setKey_shifts_without_snapshot :
    (SheetEditorCore.setKey keyShiftStart 5 true).doc ≠ keyShiftStart.doc
    ∧ (SheetEditorCore.setKey keyShiftStart 5 true).hist = keyShiftStart.hist
    ∧ (SheetEditorCore.setKey keyShiftStart 5 true).doneCalls
      = keyShiftStart.doneCalls :=
  ⟨by decide, rfl, rfl⟩

/-- C6 (amended): `setKey` bypasses the operation coordinator entirely —
for every state and arguments it changes neither the history nor either
callback counter — while any command routed through `runAtomOperation`
pushes exactly one snapshot of the resulting tree on outermost success. -/
theorem setKey_bypasses_coordinator (s : EditorState) (newKey : Int)
    (shiftChord : Bool) :
    (SheetEditorCore.setKey s newKey shiftChord).hist = s.hist
    ∧ (SheetEditorCore.setKey s newKey shiftChord).doneCalls = s.doneCalls
    ∧ (SheetEditorCore.setKey s newKey shiftChord).failCalls = s.failCalls
    ∧ (∀ (a : EditAction) (u : Unit) (s' : EditorState),
        SheetEditorCore.runAtomOperation s a = (.ok u, s')
        → s'.hist = s.hist.add MAX_UNDO_TIMES s'.doc
          ∧ s'.doneCalls = s.doneCalls + 1) := by
  refine ⟨?_, ?_, ?_, fun a u s' h => runAtom_ok_char s a u s' h⟩
  all_goals unfold SheetEditorCore.setKey
  all_goals split
  all_goals rfl

/-- `add` always leaves the cursor on the snapshot just pushed, whether
or not the oldest entry was evicted. -/
theorem Hist.add_current (h : Hist) (snap : SheetNode) :
    (h.add MAX_UNDO_TIMES snap).current? = some snap := by
  have hconcat : (h.entries.take (h.cursor + 1)
      ++ [snap])[(h.entries.take (h.cursor + 1)).length]? = some snap := by
    rw [List.getElem?_append_right (le_refl _)]
    simp
  unfold Hist.add Hist.current?
  dsimp only
  split
  · rename_i hlt
    have hlen : 1 ≤ (h.entries.take (h.cursor + 1)).length := by
      simp only [MAX_UNDO_TIMES, List.length_append, List.length_cons,
        List.length_nil] at hlt
      omega
    simp only [List.length_append, List.length_cons, List.length_nil,
      List.getElem?_drop]
    rw [show 1 + ((h.entries.take (h.cursor + 1)).length + 0 + 1 - 2)
        = (h.entries.take (h.cursor + 1)).length by omega]
    exact hconcat
  · simp only [List.length_append, List.length_cons, List.length_nil]
    rw [show (h.entries.take (h.cursor + 1)).length + 0 + 1 - 1
        = (h.entries.take (h.cursor + 1)).length by omega]
    exact hconcat

/-- The C10 failing start: a key shift makes the live tree differ from
the newest committed snapshot without committing anything. -/
def shiftedStart : EditorState :=
  SheetEditorCore.setKey
    (SheetEditorCore.init 0 (.mk .Root "" 0 [.mk .Chord "d" 1 []])) 4 true

/-- C10 counterexample: from a reachable uncommitted state, a cancelled
text insert returns without raising and without touching the tree, and
the atom operation does push one new snapshot — but that snapshot is a
clone of the live tree, not of the previous snapshot, so the two are
not structurally identical. -/
theorem insert_cancelled_snapshot_differs :
    (SheetEditorCore.insert shiftedStart [0] .text false "").1 = .ok ()
    ∧ (SheetEditorCore.insert shiftedStart [0] .text false "").2.doc
      = shiftedStart.doc
    ∧ (SheetEditorCore.insert shiftedStart [0] .text false "").2.hist.entries.length
      = shiftedStart.hist.entries.length + 1
    ∧ (SheetEditorCore.insert shiftedStart [0] .text false "").2.hist.current?
      ≠ shiftedStart.hist.current? :=
  ⟨rfl, rfl, rfl, by decide⟩

/-- C10 (amended): a cancelled or empty provider result for the text and
mark variants makes `insert` return successfully with the tree
untouched, and the enclosing atom operation still pushes exactly one
snapshot — a clone of the live tree; that snapshot coincides with the
previous one exactly when the starting state was committed. -/
theorem insert_cancelled_commits_snapshot (s : EditorState) (p : NodePath)
    (ty : InsertType) (b : Bool) (hty : ty = .text ∨ ty = .mark) :
    SheetEditorCore.insert s p ty b ""
      = (.ok (), { s with hist := s.hist.add MAX_UNDO_TIMES s.doc,
                          doneCalls := s.doneCalls + 1 })
    ∧ (SheetEditorCore.insert s p ty b "").2.hist.current? = some s.doc
    ∧ (s.hist.current? = some s.doc
        → (SheetEditorCore.insert s p ty b "").2.hist.current? = s.hist.current?) := by
  have h1 : SheetEditorCore.insert s p ty b ""
      = (.ok (), { s with hist := s.hist.add MAX_UNDO_TIMES s.doc,
                          doneCalls := s.doneCalls + 1 }) := by
    rcases hty with rfl | rfl
    · cases b <;> rfl
    · cases b <;> rfl
  have h2 : (SheetEditorCore.insert s p ty b "").2.hist.current? = some s.doc := by
    rw [h1]
    exact Hist.add_current s.hist s.doc
  exact ⟨h1, h2, fun hc => by rw [h2, hc]⟩

/-- A fresh editor around a one-leaf sheet, used as the C10 witness
state. -/
def plainStart : EditorState :=
  SheetEditorCore.init 0 (.mk .Root "" 0 [.mk .Text "y" 0 []])

/-- Witness for the amended C10 theorem at a concrete committed state. -/
theorem insert_cancelled_commits_snapshot_witness :
    (InsertType.text = InsertType.text ∨ InsertType.text = InsertType.mark)
    ∧ (SheetEditorCore.insert plainStart [0] .text false ""
        = (.ok (), { plainStart with
            hist := plainStart.hist.add MAX_UNDO_TIMES plainStart.doc,
            doneCalls := plainStart.doneCalls + 1 })
      ∧ (SheetEditorCore.insert plainStart [0] .text false "").2.hist.current?
        = some plainStart.doc
      ∧ (plainStart.hist.current? = some plainStart.doc
        → (SheetEditorCore.insert plainStart [0] .text false "").2.hist.current?
          = plainStart.hist.current?)) :=
  ⟨Or.inl rfl,
   insert_cancelled_commits_snapshot plainStart [0] .text false (Or.inl rfl)⟩

/-- The live tree after a sequence of whole-children commits. -/
def docAfter : SheetNode → List (List SheetNode) → SheetNode
  | d, [] => d
  | d, t :: ts => docAfter (d.withChildren t) ts

/-- The snapshots such a sequence pushes, in order. -/
def snapsOf : SheetNode → List (List SheetNode) → List SheetNode
  | _, [] => []
  | d, t :: ts => d.withChildren t :: snapsOf (d.withChildren t) ts

theorem snapsOf_length (ts : List (List SheetNode)) :
    ∀ (d : SheetNode), (snapsOf d ts).length = ts.length := by
  induction ts with
  | nil => intro d; rfl
  | cons t ts ih => intro d; simp [snapsOf, ih]

/-- Replacing the children after the sequence equals replacing them
directly: the commits only ever touch the root's children. -/
theorem docAfter_withChildren_absorb (ts : List (List SheetNode)) :
    ∀ (d : SheetNode) (x : List SheetNode),
    (docAfter d ts).withChildren x = d.withChildren x := by
  induction ts with
  | nil => intro d x; rfl
  | cons t ts ih =>
    intro d x
    simp only [docAfter, ih, SheetNode.withChildren_withChildren]

/-- The final tree is itself a children replacement of the start. -/
theorem docAfter_eq_withChildren (ts : List (List SheetNode)) (d : SheetNode) :
    d.withChildren (docAfter d ts).children = docAfter d ts := by
  have h := docAfter_withChildren_absorb ts d (docAfter d ts).children
  rw [SheetNode.withChildren_self] at h
  exact h.symm

/-- The last snapshot of a non-empty commit sequence is the final tree. -/
theorem snapsOf_getLast (ts : List (List SheetNode)) :
    ∀ (d : SheetNode), ts ≠ []
    → (snapsOf d ts)[ts.length - 1]? = some (docAfter d ts) := by
  induction ts with
  | nil => intro d h; exact absurd rfl h
  | cons t ts ih =>
    intro d _
    cases ts with
    | nil => rfl
    | cons t2 ts2 =>
      have := ih (d.withChildren t) (by simp)
      simpa [snapsOf, docAfter] using this

/-- Within capacity, a sequence of committed transactions from a
committed state with the cursor on the newest entry appends one
snapshot per transaction and advances the cursor with them. -/
theorem commitSeq_char (ts : List (List SheetNode)) :
    ∀ (s : EditorState),
    s.hist.current? = some s.doc
    → s.hist.cursor + 1 = s.hist.entries.length
    → s.hist.entries.length + ts.length ≤ MAX_UNDO_TIMES
    → commitSeq s ts
      = ⟨s.sheetKey, docAfter s.doc ts,
         ⟨s.hist.entries ++ snapsOf s.doc ts, s.hist.cursor + ts.length⟩,
         s.doneCalls + ts.length, s.failCalls⟩ := by
  induction ts with
  | nil =>
    intro s hcom hlast hcap
    simp [commitSeq, docAfter, snapsOf]
  | cons t ts ih =>
    intro s hcom hlast hcap
    have htake : s.hist.entries.take (s.hist.cursor + 1) = s.hist.entries := by
      rw [hlast]
      exact List.take_length _
    have hhist : s.hist.add MAX_UNDO_TIMES (s.doc.withChildren t)
        = ⟨s.hist.entries ++ [s.doc.withChildren t], s.hist.cursor + 1⟩ := by
      unfold Hist.add
      dsimp only
      rw [htake]
      rw [if_neg (by
        simp only [MAX_UNDO_TIMES, List.length_cons] at hcap ⊢
        simp only [List.length_append, List.length_cons, List.length_nil]
        omega)]
      congr 1
      simp only [List.length_append, List.length_cons, List.length_nil]
      omega
    have hstep : commitChildren s t
        = { s with doc := s.doc.withChildren t,
                   hist := ⟨s.hist.entries ++ [s.doc.withChildren t],
                            s.hist.cursor + 1⟩,
                   doneCalls := s.doneCalls + 1 } := by
      rw [← hhist]
      rfl
    have hcom2 : (⟨s.hist.entries ++ [s.doc.withChildren t],
        s.hist.cursor + 1⟩ : Hist).current? = some (s.doc.withChildren t) := by
      unfold Hist.current?
      dsimp only
      rw [hlast, List.getElem?_append_right (le_refl _)]
      simp
    have hlast2 : (s.hist.cursor + 1) + 1
        = (s.hist.entries ++ [s.doc.withChildren t]).length := by
      simp only [List.length_append, List.length_cons, List.length_nil]
      omega
    have hcap2 : (s.hist.entries ++ [s.doc.withChildren t]).length + ts.length
        ≤ MAX_UNDO_TIMES := by
      simp only [List.length_append, List.length_cons, List.length_nil]
      simp only [List.length_cons] at hcap
      omega
    show commitSeq (commitChildren s t) ts = _
    rw [hstep]
    rw [ih _ hcom2 hlast2 hcap2]
    simp only [docAfter, snapsOf, List.append_assoc, List.singleton_append,
      List.length_cons]
    congr 1
    · congr 1
      omega
    · omega

/-- Evaluation of an undo chain: while the cursor stays in range each
step moves the cursor back one entry and loads that entry's children. -/
theorem undoN_eval (n : Nat) :
    ∀ (E : List SheetNode) (c : Nat) (d : SheetNode) (k : Int) (dn fl : Nat),
    n ≤ c → c < E.length
    → undoN n ⟨k, d, ⟨E, c⟩, dn, fl⟩
      = .ok ⟨k, if n = 0 then d else d.withChildren ((E[c - n]?.getD d).children),
             ⟨E, c - n⟩, dn, fl⟩ := by
  induction n with
  | zero =>
    intro E c d k dn fl _ _
    simp [undoN]
  | succ n ih =>
    intro E c d k dn fl hn hc
    have hc0 : 0 < c := by omega
    have hidx : c - 1 < E.length := by omega
    obtain ⟨snap, hsnap⟩ : ∃ x, E[c - 1]? = some x :=
      ⟨_, List.getElem?_eq_getElem hidx⟩
    have hstep : SheetEditorCore.undo ⟨k, d, ⟨E, c⟩, dn, fl⟩
        = .ok ⟨k, d.withChildren snap.children, ⟨E, c - 1⟩, dn, fl⟩ := by
      unfold SheetEditorCore.undo
      rw [if_pos (by simp [Hist.hasPrev]; omega)]
      dsimp only
      rw [hsnap]
    show (match SheetEditorCore.undo ⟨k, d, ⟨E, c⟩, dn, fl⟩ with
        | .ok s1 => undoN n s1
        | .error e => .error e) = _
    rw [hstep]
    dsimp only
    rw [ih E (c - 1) (d.withChildren snap.children) k dn fl (by omega) (by omega)]
    by_cases hn0 : n = 0
    · subst hn0
      simp [hsnap]
    · obtain ⟨snap2, hsnap2⟩ : ∃ x, E[c - (n + 1)]? = some x :=
        ⟨_, List.getElem?_eq_getElem (by omega : c - (n + 1) < E.length)⟩
      have harith : c - 1 - n = c - (n + 1) := by omega
      rw [harith, hsnap2, if_neg hn0, if_neg (by omega : ¬ n + 1 = 0)]
      simp [SheetNode.withChildren_withChildren]

/-- Evaluation of a redo chain: while entries remain ahead each step
moves the cursor forward one entry and loads that entry's children. -/
theorem redoN_eval (n : Nat) :
    ∀ (E : List SheetNode) (c : Nat) (d : SheetNode) (k : Int) (dn fl : Nat),
    c + n < E.length
    → redoN n ⟨k, d, ⟨E, c⟩, dn, fl⟩
      = .ok ⟨k, if n = 0 then d else d.withChildren ((E[c + n]?.getD d).children),
             ⟨E, c + n⟩, dn, fl⟩ := by
  induction n with
  | zero =>
    intro E c d k dn fl _
    simp [redoN]
  | succ n ih =>
    intro E c d k dn fl hc
    have hidx : c + 1 < E.length := by omega
    obtain ⟨snap, hsnap⟩ : ∃ x, E[c + 1]? = some x :=
      ⟨_, List.getElem?_eq_getElem hidx⟩
    have hstep : SheetEditorCore.redo ⟨k, d, ⟨E, c⟩, dn, fl⟩
        = .ok ⟨k, d.withChildren snap.children, ⟨E, c + 1⟩, dn, fl⟩ := by
      unfold SheetEditorCore.redo
      rw [if_pos (by simp [Hist.hasNext]; omega)]
      dsimp only
      rw [hsnap]
    show (match SheetEditorCore.redo ⟨k, d, ⟨E, c⟩, dn, fl⟩ with
        | .ok s1 => redoN n s1
        | .error e => .error e) = _
    rw [hstep]
    dsimp only
    rw [ih E (c + 1) (d.withChildren snap.children) k dn fl (by omega)]
    by_cases hn0 : n = 0
    · subst hn0
      simp [hsnap]
    · obtain ⟨snap2, hsnap2⟩ : ∃ x, E[c + (n + 1)]? = some x :=
        ⟨_, List.getElem?_eq_getElem (by omega : c + (n + 1) < E.length)⟩
      have harith : c + 1 + n = c + (n + 1) := by omega
      rw [harith, hsnap2, if_neg hn0, if_neg (by omega : ¬ n + 1 = 0)]
      simp [SheetNode.withChildren_withChildren]

/-- A one-leaf children list used for bulk commits. -/
def tinyCommit : List SheetNode := [.mk .Text "x" 0 []]

/-- A fresh editor pushed through exactly `MAX_UNDO_TIMES` committed
transactions: the first eviction has just happened. -/
def overflownState : EditorState :=
  commitSeq (SheetEditorCore.init 0 (.mk .Root "" 0 []))
    (List.replicate MAX_UNDO_TIMES tinyCommit)

set_option maxRecDepth 100000 in
/-- C3 counterexample: after 100 committed transactions from a fresh
editor the baseline snapshot has been evicted (capacity 100), so
undoing 100 times fails instead of reaching the pre-sequence state. -/
theorem undo_beyond_capacity_fails :
    undoN MAX_UNDO_TIMES overflownState = .error "no more history for undo" := by
  rfl

/-- C3 (amended): as long as the history stays within its 100-snapshot
capacity, a sequence of committed transactions from a committed state
whose cursor sits on the newest entry is inverted by as many undos —
the tree returns to the exact pre-sequence value — and re-applied by as
many redos, which also restore the post-sequence history position. -/
theorem commit_undo_redo_roundtrip (s : EditorState) (ts : List (List SheetNode))
    (hcom : s.hist.current? = some s.doc)
    (hlast : s.hist.cursor + 1 = s.hist.entries.length)
    (hcap : s.hist.entries.length + ts.length ≤ MAX_UNDO_TIMES) :
    ∃ s1 s2, undoN ts.length (commitSeq s ts) = .ok s1
      ∧ s1.doc = s.doc
      ∧ redoN ts.length s1 = .ok s2
      ∧ s2.doc = (commitSeq s ts).doc
      ∧ s2.hist = (commitSeq s ts).hist := by
  have hchar := commitSeq_char ts s hcom hlast hcap
  cases ts with
  | nil => exact ⟨s, s, rfl, rfl, rfl, rfl, rfl⟩
  | cons t ts2 =>
    have hne : (t :: ts2) ≠ ([] : List (List SheetNode)) := by simp
    have hslen : (snapsOf s.doc (t :: ts2)).length = (t :: ts2).length :=
      snapsOf_length (t :: ts2) s.doc
    have hElen : (s.hist.entries ++ snapsOf s.doc (t :: ts2)).length
        = s.hist.entries.length + (t :: ts2).length := by
      rw [List.length_append, hslen]
    have hcur : s.hist.cursor < s.hist.entries.length := by omega
    have hn0 : ¬ ((t :: ts2).length = 0) := by simp
    have hback : (s.hist.entries
        ++ snapsOf s.doc (t :: ts2))[s.hist.cursor]? = some s.doc := by
      rw [List.getElem?_append]
      rw [if_pos hcur]
      exact hcom
    have hfwd : (s.hist.entries
        ++ snapsOf s.doc (t :: ts2))[s.hist.cursor + (t :: ts2).length]?
        = some (docAfter s.doc (t :: ts2)) := by
      rw [List.getElem?_append_right (by omega : s.hist.entries.length
        <= s.hist.cursor + (t :: ts2).length)]
      rw [show s.hist.cursor + (t :: ts2).length - s.hist.entries.length
        = (t :: ts2).length - 1 by omega]
      exact snapsOf_getLast (t :: ts2) s.doc hne
    have hdoc1 : (docAfter s.doc (t :: ts2)).withChildren s.doc.children = s.doc := by
      rw [docAfter_withChildren_absorb, SheetNode.withChildren_self]
    have hundo : undoN (t :: ts2).length (commitSeq s (t :: ts2))
        = .ok ⟨s.sheetKey, s.doc,
            ⟨s.hist.entries ++ snapsOf s.doc (t :: ts2), s.hist.cursor⟩,
            s.doneCalls + (t :: ts2).length, s.failCalls⟩ := by
      rw [hchar]
      rw [undoN_eval (t :: ts2).length (s.hist.entries ++ snapsOf s.doc (t :: ts2))
        (s.hist.cursor + (t :: ts2).length) (docAfter s.doc (t :: ts2)) s.sheetKey
        (s.doneCalls + (t :: ts2).length) s.failCalls (by omega) (by rw [hElen]; omega)]
      rw [show s.hist.cursor + (t :: ts2).length - (t :: ts2).length
        = s.hist.cursor by omega]
      rw [hback, if_neg hn0]
      simp only [Option.getD_some]
      rw [hdoc1]
    have hredo : redoN (t :: ts2).length
        (⟨s.sheetKey, s.doc,
          ⟨s.hist.entries ++ snapsOf s.doc (t :: ts2), s.hist.cursor⟩,
          s.doneCalls + (t :: ts2).length, s.failCalls⟩ : EditorState)
        = .ok ⟨s.sheetKey, docAfter s.doc (t :: ts2),
            ⟨s.hist.entries ++ snapsOf s.doc (t :: ts2),
             s.hist.cursor + (t :: ts2).length⟩,
            s.doneCalls + (t :: ts2).length, s.failCalls⟩ := by
      rw [redoN_eval (t :: ts2).length (s.hist.entries ++ snapsOf s.doc (t :: ts2))
        s.hist.cursor s.doc s.sheetKey
        (s.doneCalls + (t :: ts2).length) s.failCalls (by rw [hElen]; omega)]
      rw [hfwd, if_neg hn0]
      simp only [Option.getD_some]
      rw [docAfter_eq_withChildren]
    exact ⟨_, _, hundo, rfl, hredo, by rw [hchar], by rw [hchar]⟩

/-- Witness for the amended C3 theorem: one committed transaction from a
fresh editor, undone and redone. -/
theorem commit_undo_redo_roundtrip_witness :
    (plainStart.hist.current? = some plainStart.doc
      ∧ plainStart.hist.cursor + 1 = plainStart.hist.entries.length
      ∧ plainStart.hist.entries.length + [tinyCommit].length ≤ MAX_UNDO_TIMES)
    ∧ ∃ s1 s2, undoN [tinyCommit].length (commitSeq plainStart [tinyCommit]) = .ok s1
      ∧ s1.doc = plainStart.doc
      ∧ redoN [tinyCommit].length s1 = .ok s2
      ∧ s2.doc = (commitSeq plainStart [tinyCommit]).doc
      ∧ s2.hist = (commitSeq plainStart [tinyCommit]).hist :=
  ⟨⟨rfl, rfl, by decide⟩,
   commit_undo_redo_roundtrip plainStart [tinyCommit] rfl rfl (by decide)⟩

/-- Witness for the amended C6 theorem at a concrete state and key. -/
theorem setKey_bypasses_coordinator_witness :
    (SheetEditorCore.setKey keyShiftStart 7 false).hist = keyShiftStart.hist
    ∧ (SheetEditorCore.setKey keyShiftStart 7 false).doneCalls
      = keyShiftStart.doneCalls
    ∧ (SheetEditorCore.setKey keyShiftStart 7 false).failCalls
      = keyShiftStart.failCalls
    ∧ (∀ (a : EditAction) (u : Unit) (s2 : EditorState),
        SheetEditorCore.runAtomOperation keyShiftStart a = (.ok u, s2)
        → s2.hist = keyShiftStart.hist.add MAX_UNDO_TIMES s2.doc
          ∧ s2.doneCalls = keyShiftStart.doneCalls + 1) :=
  setKey_bypasses_coordinator keyShiftStart 7 false
